import Mathlib

/-!
Verification development for the job-offers scraper repository.

The Python source is shallowly embedded: each Python function that a
property depends on is translated into an executable Lean definition.
Python strings are Lean strings, `None`-able values are `Option`,
dictionaries of offer fields are structures, database tables are lists
of rows threaded explicitly through the stateful operations, and Python
floats are modelled as rationals (every numeric value reached by the
properties below is integral, so no floating-point rounding is involved).
Case folding (`str.lower`, SQL `lower`) is modelled with ASCII case
folding, which agrees with Python on every ASCII string; all inputs in
the properties below are ASCII.
-/

/-- Python truthiness of an optional string: `None` and `""` are falsy. -/
def truthyStr : Option String → Bool
  | none => false
  | some s => !s.isEmpty

/-- Auxiliary contiguous-sublist test on character lists. -/
def containsChars (needle : List Char) : List Char → Bool
  | [] => needle.isEmpty
  | c :: rest => needle.isPrefixOf (c :: rest) || containsChars needle rest

/-- Python `needle in hay` substring test on strings. -/
def strContains (hay needle : String) : Bool :=
  containsChars needle.toList hay.toList

/-- ASCII lowercase of one character (the case folding used by
`str.lower` and SQL `lower` on the ASCII inputs of the properties). -/
def pyLowerChar (c : Char) : Char :=
  if 65 ≤ c.toNat ∧ c.toNat ≤ 90 then Char.ofNat (c.toNat + 32) else c

/-- ASCII lowercase of a string, modelling Python `str.lower`. -/
def pyLower (s : String) : String :=
  String.mk (s.data.map pyLowerChar)

/-- Python whitespace test used by `str.strip`. -/
def pyWhitespace (c : Char) : Bool :=
  c.toNat == 32 || c.toNat == 9 || c.toNat == 10 ||
  c.toNat == 13 || c.toNat == 11 || c.toNat == 12

/-- Embedding of Python `str.strip()`. -/
def pyStrip (s : String) : String :=
  String.mk (((s.data.dropWhile pyWhitespace).reverse.dropWhile
    pyWhitespace).reverse)

/-- Helper of `pySplitComma`: splits a character list at a separator. -/
def splitOnCharAux (sep : Char) : List Char → List Char → List (List Char)
  | [], cur => [cur.reverse]
  | c :: rest, cur =>
    if c = sep then cur.reverse :: splitOnCharAux sep rest []
    else splitOnCharAux sep rest (c :: cur)

/-- Embedding of Python `s.split(',')`. -/
def pySplitComma (s : String) : List String :=
  (splitOnCharAux ',' s.data []).map String.mk

/-!
## Offer data and the two stores

`OfferData` is the Python dictionary handed to an insert path
(`offer_data`); a missing key is `none`.  `EmbRow` is a row of the
embedded SQLite store created in `src/database/db_manager.py`
(`job_offers` table: no `seen`, no `created_at`); `RelRow` is a row of
the relational store declared in `src/backend/app/models.py`.
-/

structure OfferData where
  url : Option String := none
  title : Option String := none
  company : Option String := none
  location : Option String := none
  description : Option String := none
  technologies : Option String := none
  salary_min : Option ℚ := none
  salary_max : Option ℚ := none
  salary_period : Option String := none
  work_type : Option String := none
  contract_type : Option String := none
  employment_type : Option String := none
  valid_until : Option String := none
  source : Option String := none
  deriving Repr, DecidableEq

structure EmbRow where
  url : String
  title : String
  company : Option String
  location : Option String
  description : Option String
  technologies : Option String
  salary_min : Option ℚ
  salary_max : Option ℚ
  salary_period : Option String
  work_type : Option String
  contract_type : Option String
  employment_type : Option String
  valid_until : Option String
  source : String
  scraped_at : Nat
  deriving Repr, DecidableEq

structure RelRow where
  url : String
  title : String
  company : Option String
  location : Option String
  description : Option String
  technologies : Option String
  salary_min : Option ℚ
  salary_max : Option ℚ
  salary_period : Option String
  work_type : Option String
  contract_type : Option String
  employment_type : Option String
  valid_until : Option String
  source : String
  seen : Bool
  deriving Repr, DecidableEq

namespace DbManager

/-- Embedding of `DatabaseManager.offer_exists` (src/database/db_manager.py):
`SELECT 1 FROM job_offers WHERE url = ?` is non-empty. -/
def offer_exists (url : String) (table : List EmbRow) : Bool :=
  table.any (fun r => r.url == url)

/-- Embedding of `DatabaseManager.insert_offer` (src/database/db_manager.py).
The `now` argument stands for `datetime.now().isoformat()` used for
`scraped_at`.  A falsy URL is rejected, an existing URL is rejected, and
the `source` column is `NOT NULL`, so a `None` source raises
`sqlite3.IntegrityError`, which the function catches and reports as
`False` with the table unchanged.  Returns the Python boolean result and
the table after the call.  `mkRow` is the row written by the `INSERT`
statement. -/
def mkRow (offer_data : OfferData) (src : String) (now : Nat) : EmbRow :=
  { url := offer_data.url.getD ""
    title := offer_data.title.getD ""
    company := offer_data.company
    location := offer_data.location
    description := offer_data.description
    technologies := offer_data.technologies
    salary_min := offer_data.salary_min
    salary_max := offer_data.salary_max
    salary_period := offer_data.salary_period
    work_type := offer_data.work_type
    contract_type := offer_data.contract_type
    employment_type := offer_data.employment_type
    valid_until := offer_data.valid_until
    source := src
    scraped_at := now }

/-- Embedding of `DatabaseManager.insert_offer` (src/database/db_manager.py). -/
def insert_offer (offer_data : OfferData) (now : Nat) (table : List EmbRow) :
    Bool × List EmbRow :=
  if !truthyStr offer_data.url then (false, table)
  else
    let u := offer_data.url.getD ""
    if offer_exists u table then (false, table)
    else
      match offer_data.source with
      | none => (false, table)
      | some src => (true, table ++ [mkRow offer_data src now])

end DbManager

namespace DbAdapter

/-- Embedding of `DatabaseAdapter.offer_exists` (src/backend/app/db_adapter.py). -/
def offer_exists (url : String) (table : List RelRow) : Bool :=
  table.any (fun r => r.url == url)

/-- Embedding of `DatabaseAdapter.count_duplicates_by_company_title`
(src/backend/app/db_adapter.py).  A falsy title yields 0.  The query
filters rows whose lowered title equals the lowered incoming title;
when the incoming company is truthy it further filters on equal lowered
company (SQL `lower(NULL)` never compares equal, so `None`-company rows
are excluded), otherwise it filters rows whose company IS NULL. -/
def count_duplicates_by_company_title (company : Option String) (title : String)
    (table : List RelRow) : Nat :=
  if title.isEmpty then 0
  else
    let q := table.filter (fun r => pyLower r.title == pyLower title)
    let q :=
      if truthyStr company then
        q.filter (fun r =>
          match r.company with
          | some rc => pyLower rc == pyLower (company.getD "")
          | none => false)
      else
        q.filter (fun r => r.company == none)
    q.length

/-- Embedding of `DatabaseAdapter.insert_offer` (src/backend/app/db_adapter.py).
Checks, in order: falsy URL, URL existence, and (when
`check_duplicates`) a positive company+title duplicate count.  The
relational `source` column is `NOT NULL`, so a `None` source makes the
commit fail; the adapter rolls back and returns `False`.  Returns the
Python boolean result and the table after the call.  `mkRow` is the row
constructed by the `JobOffer(...)` call (`seen` defaults to false). -/
def mkRow (offer_data : OfferData) (src : String) : RelRow :=
  { url := offer_data.url.getD ""
    title := offer_data.title.getD ""
    company := offer_data.company
    location := offer_data.location
    description := offer_data.description
    technologies := offer_data.technologies
    salary_min := offer_data.salary_min
    salary_max := offer_data.salary_max
    salary_period := offer_data.salary_period
    work_type := offer_data.work_type
    contract_type := offer_data.contract_type
    employment_type := offer_data.employment_type
    valid_until := offer_data.valid_until
    source := src
    seen := false }

/-- Embedding of `DatabaseAdapter.insert_offer` (src/backend/app/db_adapter.py). -/
def insert_offer (offer_data : OfferData) (check_duplicates : Bool)
    (table : List RelRow) : Bool × List RelRow :=
  if !truthyStr offer_data.url then (false, table)
  else
    let u := offer_data.url.getD ""
    if offer_exists u table then (false, table)
    else if check_duplicates &&
        decide (0 < count_duplicates_by_company_title offer_data.company
          (offer_data.title.getD "") table) then
      (false, table)
    else
      match offer_data.source with
      | none => (false, table)
      | some src => (true, table ++ [mkRow offer_data src])

end DbAdapter

/-- Number of rows carrying URL `u` in the embedded store. -/
def EmbRow.countUrl (u : String) (table : List EmbRow) : Nat :=
  (table.filter (fun r => r.url == u)).length

/-- Number of rows carrying URL `u` in the relational store. -/
def RelRow.countUrl (u : String) (table : List RelRow) : Nat :=
  (table.filter (fun r => r.url == u)).length

/-- C1: after a successful insert of an offer with URL `u` into either
store, a second insert attempt of any offer with the same URL `u`
returns `False`, leaves the store unchanged, and the store contains
exactly one row with URL `u`. -/
theorem C1_url_unique_insert (u : String) (o1 o2 : OfferData)
    (h1 : o1.url = some u) (h2 : o2.url = some u) :
    (∀ now1 now2 emb emb1,
      DbManager.insert_offer o1 now1 emb = (true, emb1) →
      DbManager.insert_offer o2 now2 emb1 = (false, emb1) ∧
      EmbRow.countUrl u emb1 = 1) ∧
    (∀ ck1 ck2 rel rel1,
      DbAdapter.insert_offer o1 ck1 rel = (true, rel1) →
      DbAdapter.insert_offer o2 ck2 rel1 = (false, rel1) ∧
      RelRow.countUrl u rel1 = 1) := by
  constructor
  · intro now1 now2 emb emb1 hins
    unfold DbManager.insert_offer at hins
    rw [h1] at hins
    simp only [truthyStr, Option.getD_some, Bool.not_not] at hins
    by_cases hne : u.isEmpty
    · simp [hne] at hins
    · simp only [hne, Bool.false_eq_true, if_false, ite_false] at hins
      by_cases hex : DbManager.offer_exists u emb
      · simp [hex] at hins
      · simp only [hex, Bool.false_eq_true, if_false, ite_false] at hins
        cases hsrc : o1.source with
        | none => rw [hsrc] at hins; simp at hins
        | some src =>
          rw [hsrc] at hins
          have hemb1 : emb1 = emb ++ [_] := (Prod.mk.injEq _ _ _ _ ▸ hins).2.symm
          have hnotin : ∀ r ∈ emb, (r.url == u) = false := by
            intro r hr
            have := List.any_eq_false.mp (Bool.not_eq_true _ ▸ hex) r hr
            simpa using this
          constructor
          · unfold DbManager.insert_offer
            rw [h2]
            simp only [truthyStr, Option.getD_some, Bool.not_not, hne,
              Bool.false_eq_true, if_false, ite_false]
            have hex2 : DbManager.offer_exists u emb1 = true := by
              rw [hemb1]
              unfold DbManager.offer_exists
              simp [List.any_append, DbManager.mkRow, h1]
            simp [hex2]
          · rw [hemb1]
            unfold EmbRow.countUrl
            rw [List.filter_append]
            have hnil : emb.filter (fun r => r.url == u) = [] := by
              apply List.filter_eq_nil_iff.mpr
              intro r hr
              simp [hnotin r hr]
            simp [hnil, DbManager.mkRow, h1]
  · intro ck1 ck2 rel rel1 hins
    unfold DbAdapter.insert_offer at hins
    rw [h1] at hins
    simp only [truthyStr, Option.getD_some, Bool.not_not] at hins
    by_cases hne : u.isEmpty
    · simp [hne] at hins
    · simp only [hne, Bool.false_eq_true, if_false, ite_false] at hins
      by_cases hex : DbAdapter.offer_exists u rel
      · simp [hex] at hins
      · simp only [hex, Bool.false_eq_true, if_false, ite_false] at hins
        by_cases hdup : (ck1 && decide (0 < DbAdapter.count_duplicates_by_company_title
            o1.company (o1.title.getD "") rel)) = true
        · simp [hdup] at hins
        · simp only [hdup, Bool.false_eq_true, if_false, ite_false] at hins
          cases hsrc : o1.source with
          | none => rw [hsrc] at hins; simp at hins
          | some src =>
            rw [hsrc] at hins
            have hrel1 : rel1 = rel ++ [_] := (Prod.mk.injEq _ _ _ _ ▸ hins).2.symm
            have hnotin : ∀ r ∈ rel, (r.url == u) = false := by
              intro r hr
              have := List.any_eq_false.mp (Bool.not_eq_true _ ▸ hex) r hr
              simpa using this
            constructor
            · unfold DbAdapter.insert_offer
              rw [h2]
              simp only [truthyStr, Option.getD_some, Bool.not_not, hne,
                Bool.false_eq_true, if_false, ite_false]
              have hex2 : DbAdapter.offer_exists u rel1 = true := by
                rw [hrel1]
                unfold DbAdapter.offer_exists
                simp [List.any_append, DbAdapter.mkRow, h1]
              simp [hex2]
            · rw [hrel1]
              unfold RelRow.countUrl
              rw [List.filter_append]
              have hnil : rel.filter (fun r => r.url == u) = [] := by
                apply List.filter_eq_nil_iff.mpr
                intro r hr
                simp [hnotin r hr]
              simp [hnil, DbAdapter.mkRow, h1]

/-- Concrete offer record used to instantiate the insert theorems. -/
def sampleOffer1 : OfferData :=
  { url := some "https://jobs.example/1", title := some "Engineer",
    company := some "Acme", source := some "pracuj_pl" }

/-- Second concrete offer record, colliding on URL with `sampleOffer1`. -/
def sampleOffer2 : OfferData :=
  { url := some "https://jobs.example/1", title := some "Other",
    source := some "justjoin_it" }

/-- Witness instantiating C1 at a concrete pair of offers in both stores. -/
theorem C1_url_unique_insert_witness :
    (DbManager.insert_offer sampleOffer2 7
        (DbManager.insert_offer sampleOffer1 3 []).2 =
      (false, (DbManager.insert_offer sampleOffer1 3 []).2) ∧
     EmbRow.countUrl "https://jobs.example/1"
        (DbManager.insert_offer sampleOffer1 3 []).2 = 1) ∧
    (DbAdapter.insert_offer sampleOffer2 false
        (DbAdapter.insert_offer sampleOffer1 true []).2 =
      (false, (DbAdapter.insert_offer sampleOffer1 true []).2) ∧
     RelRow.countUrl "https://jobs.example/1"
        (DbAdapter.insert_offer sampleOffer1 true []).2 = 1) :=
  ⟨(C1_url_unique_insert "https://jobs.example/1" sampleOffer1 sampleOffer2
      rfl rfl).1 3 7 [] (DbManager.insert_offer sampleOffer1 3 []).2 rfl,
   (C1_url_unique_insert "https://jobs.example/1" sampleOffer1 sampleOffer2
      rfl rfl).2 true false [] (DbAdapter.insert_offer sampleOffer1 true []).2 rfl⟩

/-- Successful adapter inserts append exactly the constructed row. -/
theorem DbAdapter.insert_offer_success (o : OfferData) (ck : Bool)
    (s t : List RelRow) (h : DbAdapter.insert_offer o ck s = (true, t)) :
    ∃ src, o.source = some src ∧ truthyStr o.url = true ∧
      DbAdapter.offer_exists (o.url.getD "") s = false ∧
      t = s ++ [DbAdapter.mkRow o src] := by
  unfold DbAdapter.insert_offer at h
  by_cases h1 : truthyStr o.url
  · rw [h1] at h
    simp only [Bool.not_true, Bool.false_eq_true, if_false, ite_false] at h
    by_cases h2 : DbAdapter.offer_exists (o.url.getD "") s
    · simp [h2] at h
    · simp only [h2, Bool.false_eq_true, if_false, ite_false] at h
      by_cases h3 : (ck && decide (0 < DbAdapter.count_duplicates_by_company_title
          o.company (o.title.getD "") s)) = true
      · simp [h3] at h
      · simp only [h3, Bool.false_eq_true, if_false, ite_false] at h
        cases h4 : o.source with
        | none => rw [h4] at h; simp at h
        | some src =>
          rw [h4] at h
          refine ⟨src, rfl, h1, by simpa using h2, ?_⟩
          exact ((Prod.mk.injEq _ _ _ _ ▸ h).2).symm
  · rw [Bool.not_eq_true] at h1
    rw [h1] at h
    simp at h


/-- First offer of the company+title de-duplication scenario. -/
def c3Offer1 (u1 : String) : OfferData :=
  { url := some u1, title := some "Engineer", company := some "Acme",
    source := some "pracuj_pl" }

/-- Second offer of the scenario: different URL, company and title equal
to the first offer up to letter case. -/
def c3Offer2 (u2 : String) : OfferData :=
  { url := some u2, title := some "ENGINEER", company := some "acme",
    source := some "justjoin_it" }

/-- C3: with duplicate-checking enabled, after inserting an offer with
company Acme and title Engineer, a second insert with a different URL
but company acme and title ENGINEER is rejected (case-insensitive
company+title match); with duplicate-checking disabled the same second
offer is accepted; and with an absent incoming company the
company+title check only ever matches rows whose company is absent. -/
theorem C3_company_title_dedup (u1 u2 : String)
    (hu2e : u2.isEmpty = false) (hneq : u2 ≠ u1) (s t1 : List RelRow)
    (hins : DbAdapter.insert_offer (c3Offer1 u1) true s = (true, t1))
    (hnex : DbAdapter.offer_exists u2 s = false) :
    DbAdapter.insert_offer (c3Offer2 u2) true t1 = (false, t1) ∧
    (DbAdapter.insert_offer (c3Offer2 u2) false t1).1 = true ∧
    (∀ (table : List RelRow) (title : String),
      0 < DbAdapter.count_duplicates_by_company_title none title table →
      ∃ r ∈ table, r.company = none ∧ pyLower r.title = pyLower title) := by
  obtain ⟨src, hsrc, htr, hex1, ht1⟩ := DbAdapter.insert_offer_success _ _ _ _ hins
  have hrowurl : (DbAdapter.mkRow (c3Offer1 u1) src).url = u1 := by
    simp [DbAdapter.mkRow, c3Offer1]
  have hex2 : DbAdapter.offer_exists u2 t1 = false := by
    rw [ht1]
    unfold DbAdapter.offer_exists
    rw [List.any_append]
    unfold DbAdapter.offer_exists at hnex
    simp [hnex, hrowurl, hneq.symm]
  have hmem : DbAdapter.mkRow (c3Offer1 u1) src ∈ t1 := by
    rw [ht1]; exact List.mem_append_right _ (List.mem_singleton.mpr rfl)
  have hcount : 0 < DbAdapter.count_duplicates_by_company_title
      (some "acme") "ENGINEER" t1 := by
    unfold DbAdapter.count_duplicates_by_company_title
    rw [if_neg (by decide)]
    dsimp only []
    rw [if_pos (by decide)]
    apply List.length_pos.mpr
    apply List.ne_nil_of_mem (a := DbAdapter.mkRow (c3Offer1 u1) src)
    rw [List.mem_filter]
    refine ⟨List.mem_filter.mpr ⟨hmem, ?_⟩, ?_⟩
    · show (pyLower (DbAdapter.mkRow (c3Offer1 u1) src).title ==
        pyLower "ENGINEER") = true
      simp only [DbAdapter.mkRow, c3Offer1, Option.getD_some]
      decide
    · show (match (DbAdapter.mkRow (c3Offer1 u1) src).company with
        | some rc => pyLower rc == pyLower ((some "acme").getD "")
        | none => false) = true
      simp only [DbAdapter.mkRow, c3Offer1, Option.getD_some]
      decide
  refine ⟨?_, ?_, ?_⟩
  · have hc : (true && decide (0 < DbAdapter.count_duplicates_by_company_title
        (c3Offer2 u2).company ((c3Offer2 u2).title.getD "") t1)) = true := by
      simp only [c3Offer2, Option.getD_some, Bool.true_and, decide_eq_true_eq]
      exact hcount
    unfold DbAdapter.insert_offer
    rw [if_neg (by simp [c3Offer2, truthyStr, hu2e])]
    simp only [c3Offer2, Option.getD_some] at hc ⊢
    rw [if_neg (by rw [show DbAdapter.offer_exists u2 t1 = false from hex2]; simp)]
    rw [if_pos hc]
  · unfold DbAdapter.insert_offer
    rw [if_neg (by simp [c3Offer2, truthyStr, hu2e])]
    simp only [c3Offer2, Option.getD_some]
    rw [if_neg (by rw [show DbAdapter.offer_exists u2 t1 = false from hex2]; simp)]
    rw [if_neg (by simp)]
  · intro table title hpos
    unfold DbAdapter.count_duplicates_by_company_title at hpos
    by_cases hte : title.isEmpty
    · rw [if_pos hte] at hpos
      exact absurd hpos (by simp)
    · rw [if_neg (by simp [hte])] at hpos
      dsimp only [] at hpos
      rw [if_neg (show ¬(truthyStr none = true) by decide)] at hpos
      obtain ⟨r, hr⟩ := List.exists_mem_of_length_pos hpos
      rw [List.mem_filter] at hr
      obtain ⟨hr1, hr2⟩ := hr
      rw [List.mem_filter] at hr1
      obtain ⟨hrt, hrtl⟩ := hr1
      refine ⟨r, hrt, by simpa using hr2, by simpa using hrtl⟩

/-- Witness instantiating C3 at concrete URLs starting from the empty store. -/
theorem C3_company_title_dedup_witness :
    DbAdapter.insert_offer (c3Offer2 "https://b") true
        (DbAdapter.insert_offer (c3Offer1 "https://a") true []).2 =
      (false, (DbAdapter.insert_offer (c3Offer1 "https://a") true []).2) ∧
    (DbAdapter.insert_offer (c3Offer2 "https://b") false
        (DbAdapter.insert_offer (c3Offer1 "https://a") true []).2).1 = true ∧
    (∀ (table : List RelRow) (title : String),
      0 < DbAdapter.count_duplicates_by_company_title none title table →
      ∃ r ∈ table, r.company = none ∧ pyLower r.title = pyLower title) :=
  C3_company_title_dedup "https://a" "https://b" (by decide) (by decide)
    [] (DbAdapter.insert_offer (c3Offer1 "https://a") true []).2 rfl rfl

/-!
## Offers list endpoint (src/backend/app/routers/offers.py, get_offers)

The database query and sorting happen before the code below runs; the
embedding takes the materialized query result `all_matching_offers` as
input and models the rest of the handler: the in-memory keyword filter
loop and the final slice `all_matching_offers[offset:offset + limit]`.
-/

/-- Embedding of `[k.strip().lower() for k in ks.split(',') if k.strip()]`. -/
def keywordList (ks : String) : List String :=
  ((((pySplitComma ks).map pyStrip).filter
    (fun k => !k.isEmpty)).map pyLower)

/-- Embedding of the search text
`f"{offer.title or ''} {offer.company or ''} {offer.technologies or ''}".lower()`. -/
def searchText (r : RelRow) : String :=
  pyLower (r.title ++ " " ++ r.company.getD "" ++ " " ++ r.technologies.getD "")

/-- Embedding of the required-keywords paragraph of the loop body: the
offer survives unless the parameter is truthy, parses to a non-empty
keyword list, and no keyword is a substring of the search text. -/
def passesRequired (required_keywords : Option String) (r : RelRow) : Bool :=
  if truthyStr required_keywords then
    let required := keywordList (required_keywords.getD "")
    if !required.isEmpty then
      required.any (fun kw => strContains (searchText r) kw)
    else true
  else true

/-- Embedding of the excluded-keywords paragraph of the loop body: the
offer survives unless some excluded keyword is a substring of the
search text. -/
def passesExcluded (excluded_keywords : Option String) (r : RelRow) : Bool :=
  if truthyStr excluded_keywords then
    let excluded := keywordList (excluded_keywords.getD "")
    if !excluded.isEmpty then
      !excluded.any (fun kw => strContains (searchText r) kw)
    else true
  else true

/-- Embedding of the `for offer in all_matching_offers` loop with its two
`continue` sites and final `filtered_offers.append(offer)`. -/
def filterLoop (required excluded : Option String) : List RelRow → List RelRow
  | [] => []
  | r :: rest =>
    if passesRequired required r then
      if passesExcluded excluded r then
        r :: filterLoop required excluded rest
      else filterLoop required excluded rest
    else filterLoop required excluded rest

/-- Python slice `l[offset:offset + limit]` for natural offset and limit. -/
def pySlice {α : Type} (l : List α) (offset limit : Nat) : List α :=
  (l.drop offset).take limit

/-- Embedding of the tail of `get_offers`: the keyword filters run only
when at least one keyword parameter is truthy, and pagination is the
slice of whatever list that step produced. -/
def get_offers_post (required excluded : Option String) (limit offset : Nat)
    (all_matching_offers : List RelRow) : List RelRow :=
  let all2 :=
    if truthyStr required || truthyStr excluded then
      filterLoop required excluded all_matching_offers
    else all_matching_offers
  pySlice all2 offset limit

/-- The handler loop is exactly a filter by the conjunction of the two
keyword predicates. -/
theorem filterLoop_eq_filter (required excluded : Option String)
    (rows : List RelRow) :
    filterLoop required excluded rows =
      rows.filter (fun r => passesRequired required r && passesExcluded excluded r) := by
  induction rows with
  | nil => rfl
  | cons r rest ih =>
    unfold filterLoop
    rw [List.filter_cons]
    by_cases h1 : passesRequired required r
    · by_cases h2 : passesExcluded excluded r
      · simp [h1, h2, ih]
      · simp only [Bool.not_eq_true] at h2
        simp [h1, h2, ih]
    · simp only [Bool.not_eq_true] at h1
      simp [h1, ih]

/-- A falsy required-keywords parameter filters nothing. -/
theorem passesRequired_falsy (required : Option String) (r : RelRow)
    (h : truthyStr required = false) : passesRequired required r = true := by
  simp [passesRequired, h]

/-- A falsy excluded-keywords parameter filters nothing. -/
theorem passesExcluded_falsy (excluded : Option String) (r : RelRow)
    (h : truthyStr excluded = false) : passesExcluded excluded r = true := by
  simp [passesExcluded, h]

/-- C4: the offers endpoint applies the keyword filters in memory to the
materialized database rows and takes the limit/offset window from the
post-filter sequence: the result is always the slice of the filtered
row list, a required keyword must match (as a case-insensitive
substring of title-company-technologies) at least once, and an excluded
keyword must match never. -/
theorem C4_filter_then_paginate (required excluded : Option String)
    (limit offset : Nat) (rows : List RelRow) :
    get_offers_post required excluded limit offset rows =
      ((rows.filter (fun r => passesRequired required r &&
        passesExcluded excluded r)).drop offset).take limit ∧
    (∀ rk r, required = some rk → truthyStr required = true →
      (passesRequired required r = true ↔
        keywordList rk = [] ∨
        ∃ kw ∈ keywordList rk, strContains (searchText r) kw = true)) ∧
    (∀ ek r, excluded = some ek → truthyStr excluded = true →
      (passesExcluded excluded r = true ↔
        keywordList ek = [] ∨
        ∀ kw ∈ keywordList ek, strContains (searchText r) kw = false)) := by
  refine ⟨?_, ?_, ?_⟩
  · unfold get_offers_post pySlice
    by_cases h : (truthyStr required || truthyStr excluded) = true
    · rw [if_pos h]
      rw [filterLoop_eq_filter]
    · rw [if_neg h]
      rw [Bool.or_eq_true] at h
      push_neg at h
      obtain ⟨h1, h2⟩ := h
      have h1b : truthyStr required = false := Bool.eq_false_iff.mpr h1
      have h2b : truthyStr excluded = false := Bool.eq_false_iff.mpr h2
      have : rows.filter (fun r => passesRequired required r &&
          passesExcluded excluded r) = rows := by
        apply List.filter_eq_self.mpr
        intro r _
        rw [passesRequired_falsy required r h1b, passesExcluded_falsy excluded r h2b]
        rfl
      rw [this]
  · intro rk r hrk htr
    unfold passesRequired
    rw [if_pos htr]
    subst hrk
    simp only [Option.getD_some]
    by_cases hkl : keywordList rk = []
    · simp [hkl]
    · rw [if_pos (by simp [hkl])]
      simp only [List.any_eq_true]
      constructor
      · intro h; exact Or.inr h
      · intro h
        rcases h with h | h
        · exact absurd h hkl
        · exact h
  · intro ek r hek htr
    unfold passesExcluded
    rw [if_pos htr]
    subst hek
    simp only [Option.getD_some]
    by_cases hkl : keywordList ek = []
    · simp [hkl]
    · rw [if_pos (by simp [hkl])]
      simp only [Bool.not_eq_true', List.any_eq_false]
      constructor
      · intro h
        refine Or.inr ?_
        intro kw hkw
        simpa using h kw hkw
      · intro h
        rcases h with h | h
        · exact absurd h hkl
        · intro kw hkw
          simpa using h kw hkw

/-- Witness instantiating C4 on a concrete store and keyword parameters. -/
theorem C4_filter_then_paginate_witness :
    (get_offers_post (some "python") (some "senior") 10 0
        [DbAdapter.mkRow (c3Offer1 "https://a") "pracuj_pl"] =
      ((([DbAdapter.mkRow (c3Offer1 "https://a") "pracuj_pl"].filter
        (fun r => passesRequired (some "python") r &&
          passesExcluded (some "senior") r)).drop 0).take 10)) ∧
    (passesRequired (some "python")
        (DbAdapter.mkRow (c3Offer1 "https://a") "pracuj_pl") = true ↔
      keywordList "python" = [] ∨
      ∃ kw ∈ keywordList "python",
        strContains (searchText (DbAdapter.mkRow (c3Offer1 "https://a")
          "pracuj_pl")) kw = true) :=
  ⟨(C4_filter_then_paginate (some "python") (some "senior") 10 0
      [DbAdapter.mkRow (c3Offer1 "https://a") "pracuj_pl"]).1,
   (C4_filter_then_paginate (some "python") (some "senior") 10 0
      [DbAdapter.mkRow (c3Offer1 "https://a") "pracuj_pl"]).2.1
      "python" (DbAdapter.mkRow (c3Offer1 "https://a") "pracuj_pl") rfl (by decide)⟩

/-!
## Distinct-technologies endpoint (src/backend/app/routers/technologies.py)
-/

/-- Lexicographic code-point comparison on character lists, the order
Python `sorted` uses for strings. -/
def strLeChars : List Char → List Char → Bool
  | [], _ => true
  | _ :: _, [] => false
  | a :: as, b :: bs =>
    if a.toNat < b.toNat then true
    else if b.toNat < a.toNat then false
    else strLeChars as bs

/-- Python string comparison `a <= b`. -/
def pyStrLe (a b : String) : Bool := strLeChars a.data b.data

/-- Embedding of the collection loop of `get_technologies`: rows whose
`technologies` column is not NULL are scanned, each truthy value is
split on commas, each piece stripped, empty pieces dropped, and every
piece added to the accumulating set (modelled as a list later
de-duplicated by exact string equality, matching Python set membership). -/
def collectTechs (offers : List RelRow) : List String :=
  (offers.filter (fun r => r.technologies ≠ none)).foldl
    (fun acc r =>
      if truthyStr r.technologies then
        acc ++ (((pySplitComma (r.technologies.getD "")).map pyStrip).filter
          (fun t => !t.isEmpty))
      else acc) []

/-- Embedding of `get_technologies`: `sorted(list(all_techs))` where
`all_techs` is the exact-string set of collected technology names. -/
def get_technologies (offers : List RelRow) : List String :=
  List.insertionSort (fun a b : String => pyStrLe a b = true)
    (collectTechs offers).dedup

/-- Store row whose technologies field holds three case variants of the
same name. -/
def c5Row : RelRow :=
  { url := "https://t", title := "T", company := none, location := none,
    description := none, technologies := some "Python, python, PYTHON",
    salary_min := none, salary_max := none, salary_period := none,
    work_type := none, contract_type := none, employment_type := none,
    valid_until := none, source := "imported", seen := false }

/-- C5 counterexample: on a store whose rows carry "Python, python,
PYTHON", the endpoint returns all three case variants, so the returned
list does contain two entries that are equal up to letter case. -/
theorem C5_case_dedup_counterexample :
    get_technologies [c5Row] = ["PYTHON", "Python", "python"] ∧
    pyLower "PYTHON" = pyLower "Python" ∧ "PYTHON" ≠ "Python" := by
  refine ⟨by decide, by decide, by decide⟩

/-- C5 amended: de-duplication is by exact string only.  The returned
list never contains the same string twice (so "Python" is returned
exactly once), but entries that differ only in letter case are returned
separately. -/
theorem C5_exact_dedup (offers : List RelRow) :
    (get_technologies offers).Nodup ∧
    (get_technologies [c5Row]).count "Python" = 1 := by
  constructor
  · have hperm := List.perm_insertionSort
      (fun a b : String => pyStrLe a b = true) (collectTechs offers).dedup
    exact hperm.nodup_iff.mpr (List.nodup_dedup _)
  · decide

/-!
## Default configuration documents

Two independent default documents exist: `ConfigManager.DEFAULT_CONFIG`
in src/config/config_manager.py (desktop/CLI side) and the module-level
`DEFAULT_CONFIG` in src/backend/app/routers/config.py (network-API
side).  They are embedded as ordered key-value lists; integers and
floats are both rationals.
-/

inductive ConfigVal where
  | str (s : String)
  | num (q : ℚ)
  | strList (l : List String)
  deriving Repr, DecidableEq

/-- Embedding of `ConfigManager.DEFAULT_CONFIG`
(src/config/config_manager.py, desktop/CLI side). -/
def configManagerDefault : List (String × ConfigVal) :=
  [("search_keyword", ConfigVal.str "junior"),
   ("max_pages", ConfigVal.num 5),
   ("delay", ConfigVal.num 1),
   ("excluded_technologies", ConfigVal.strList []),
   ("required_technologies", ConfigVal.strList []),
   ("excluded_keywords", ConfigVal.strList []),
   ("schedule", ConfigVal.str "daily"),
   ("sources", ConfigVal.strList ["pracuj_pl"])]

/-- Embedding of `DEFAULT_CONFIG` (src/backend/app/routers/config.py,
network-API side). -/
def backendDefault : List (String × ConfigVal) :=
  [("search_keyword", ConfigVal.str "junior"),
   ("max_pages", ConfigVal.num 5),
   ("delay", ConfigVal.num 1),
   ("pracuj_pl_domain", ConfigVal.str "it"),
   ("excluded_keywords", ConfigVal.strList []),
   ("schedule", ConfigVal.str "daily"),
   ("sources", ConfigVal.strList ["pracuj_pl"])]

/-- Dictionary lookup on an embedded configuration document. -/
def configLookup (k : String) (c : List (String × ConfigVal)) : Option ConfigVal :=
  (c.find? (fun kv => kv.1 == k)).map Prod.snd

/-- C6 counterexample: the desktop/CLI default document has no
`pracuj_pl_domain` key at all, so the two instances do not share the
same default document and the claimed common key is present on only one
side. -/
theorem C6_shared_defaults_counterexample :
    configLookup "pracuj_pl_domain" configManagerDefault = none ∧
    configLookup "pracuj_pl_domain" backendDefault =
      some (ConfigVal.str "it") := by
  refine ⟨by decide, by decide⟩

/-- C6 amended: only the network-API default document contains
`pracuj_pl_domain` with default "it"; the desktop/CLI document instead
carries the dead `excluded_technologies` / `required_technologies`
keys; the two documents agree on `search_keyword` "junior", `max_pages`
5, `delay` 1.0, `excluded_keywords` [], `schedule` "daily", and
`sources` ["pracuj_pl"]. -/
theorem C6_default_documents :
    configLookup "pracuj_pl_domain" backendDefault = some (ConfigVal.str "it") ∧
    configLookup "pracuj_pl_domain" configManagerDefault = none ∧
    configLookup "excluded_technologies" configManagerDefault =
      some (ConfigVal.strList []) ∧
    configLookup "required_technologies" configManagerDefault =
      some (ConfigVal.strList []) ∧
    (∀ k, k ∈ ["search_keyword", "max_pages", "delay", "excluded_keywords",
        "schedule", "sources"] →
      configLookup k configManagerDefault = configLookup k backendDefault) ∧
    configLookup "search_keyword" backendDefault =
      some (ConfigVal.str "junior") ∧
    configLookup "max_pages" backendDefault = some (ConfigVal.num 5) ∧
    configLookup "delay" backendDefault = some (ConfigVal.num 1) ∧
    configLookup "excluded_keywords" backendDefault =
      some (ConfigVal.strList []) ∧
    configLookup "schedule" backendDefault = some (ConfigVal.str "daily") ∧
    configLookup "sources" backendDefault =
      some (ConfigVal.strList ["pracuj_pl"]) := by
  refine ⟨by decide, by decide, by decide, by decide, by decide, by decide,
    by decide, by decide, by decide, by decide, by decide⟩

/-- Witness instantiating the shared-key clause of the amended C6 at the
`delay` key. -/
theorem C6_default_documents_witness :
    configLookup "delay" configManagerDefault =
      configLookup "delay" backendDefault :=
  C6_default_documents.2.2.2.2.1 "delay" (by decide)

/-!
## Scraper source tagging (src/scrapers)

`BaseScraper.__init__` sets `self.source_name = self.__class__.__name__`;
`NoFluffJobsScraper.__init__` then overwrites it with the literal
`nofluffjobs`; the other two scrapers keep the class name.  Every scrape
path tags a successful result with `offer['source'] = self.source_name`.
-/

/-- Value of `self.__class__.__name__` inside `BaseScraper.__init__` for
a concrete scraper class. -/
def BaseScraper.source_name (className : String) : String := className

/-- The `source_name` of `PracujPlScraper`, which does not override the
base initialisation. -/
def PracujPlScraper.source_name : String :=
  BaseScraper.source_name "PracujPlScraper"

/-- The `source_name` of `JustJoinItScraper`, which does not override
the base initialisation. -/
def JustJoinItScraper.source_name : String :=
  BaseScraper.source_name "JustJoinItScraper"

/-- The `source_name` of `NoFluffJobsScraper`, whose `__init__` assigns
the literal string after calling the base initialiser. -/
def NoFluffJobsScraper.source_name : String := "nofluffjobs"

/-- Embedding of `offer['source'] = self.source_name`. -/
def tagSource (source_name : String) (o : OfferData) : OfferData :=
  { o with source := some source_name }

/-- Embedding of the result accumulation of `BaseScraper.scrape` (and of
the per-offer tagging step shared by every `scrape_page_by_page`
override): each URL's parse either fails (`none`: parse returned `None`
or raised) and is skipped, or succeeds and is tagged with the scraper's
`source_name`. -/
def BaseScraper.scrape (source_name : String) (parsed : List (Option OfferData)) :
    List OfferData :=
  parsed.filterMap (fun po => po.map (tagSource source_name))

/-- C2 counterexample: a successful JustJoin.it result is tagged with
the class name `JustJoinItScraper`, which is not one of the enumerated
source identifiers pracuj_pl / justjoin_it / nofluffjobs. -/
theorem C2_source_enum_counterexample :
    (BaseScraper.scrape JustJoinItScraper.source_name
        [some { url := some "https://justjoin.it/job-offer/x" }]).map
      (fun o => o.source) = [some "JustJoinItScraper"] ∧
    ("JustJoinItScraper" ∈ ["pracuj_pl", "justjoin_it", "nofluffjobs"]) = False ∧
    PracujPlScraper.source_name = "PracujPlScraper" := by
  refine ⟨by decide, by simp, by decide⟩

/-- C2 amended: every successful result is tagged with the scraper's
`source_name`, but that name is the Python class name for the pracuj.pl
and justjoin.it scrapers (`PracujPlScraper`, `JustJoinItScraper`) and
the enumerated identifier only for the NoFluffJobs scraper
(`nofluffjobs`). -/
theorem C2_source_tagging (parsed : List (Option OfferData)) :
    (∀ o ∈ BaseScraper.scrape PracujPlScraper.source_name parsed,
      o.source = some "PracujPlScraper") ∧
    (∀ o ∈ BaseScraper.scrape JustJoinItScraper.source_name parsed,
      o.source = some "JustJoinItScraper") ∧
    (∀ o ∈ BaseScraper.scrape NoFluffJobsScraper.source_name parsed,
      o.source = some "nofluffjobs") := by
  refine ⟨?_, ?_, ?_⟩ <;>
  · intro o ho
    unfold BaseScraper.scrape at ho
    obtain ⟨po, hpo, hmap⟩ := List.mem_filterMap.mp ho
    obtain ⟨p, hp2, htag⟩ := Option.map_eq_some'.mp hmap
    rw [← htag]
    rfl

/-- Witness instantiating the amended C2 at a concrete parse result. -/
theorem C2_source_tagging_witness :
    (tagSource NoFluffJobsScraper.source_name
        { url := some "https://nofluffjobs.com/pl/job/x" }).source =
      some "nofluffjobs" :=
  (C2_source_tagging [some { url := some "https://nofluffjobs.com/pl/job/x" }]).2.2
    _ (by decide)

/-!
## NoFluffJobs scraper (src/scrapers/nofluffjobs/scraper.py)

A raw API posting is embedded as `NfjPosting` (absent JSON keys and
JSON `null` are `none`; the nested `location` object is flattened into
the `location_` fields, `tiles.values` into `tiles_values`).
-/

structure NfjPlace where
  provinceOnly : Bool := false
  city : Option String := none
  deriving Repr, DecidableEq

structure NfjSalary where
  fromVal : Option ℚ := none
  toVal : Option ℚ := none
  salaryType : Option String := none
  currency : Option String := none
  deriving Repr, DecidableEq

structure NfjTile where
  tileType : Option String := none
  value : Option String := none
  deriving Repr, DecidableEq

structure NfjPosting where
  url : Option String := none
  title : Option String := none
  name : Option String := none
  location_places : List NfjPlace := []
  location_fullyRemote : Bool := false
  location_hybridDesc : Option String := none
  salary : Option NfjSalary := none
  tiles_values : List NfjTile := []
  renewed : Option Nat := none
  category : Option String := none
  seniority : List String := []
  deriving Repr, DecidableEq

/-- Offer URL built by the scraper: `f"{OFFER_BASE_URL}/{url_slug}"`. -/
def nfjOfferUrl (slug : String) : String :=
  "https://nofluffjobs.com/pl/job/" ++ slug

/-- Embedding of the technologies loop of `_parse_api_posting`: values
of tiles whose type is `requirement`, truthy, de-duplicated by exact
value, order-preserving. -/
def nfjTechs (tiles : List NfjTile) : List String :=
  tiles.foldl (fun acc tile =>
    if tile.tileType == some "requirement" then
      match tile.value with
      | some tech =>
        if !tech.isEmpty && !acc.contains tech then acc ++ [tech] else acc
      | none => acc
    else acc) []

namespace NoFluffJobsScraper

/-- Embedding of `NoFluffJobsScraper._parse_api_posting`.  The
`valid_until` date (`renewed` milliseconds, plus the assumed 30-day
offer lifetime) is rendered as epoch seconds; no verified property
inspects its rendering. -/
def parse_api_posting (p : NfjPosting) (url : String) : OfferData :=
  let firstCity := p.location_places.findSome? (fun pl =>
    if pl.provinceOnly then none
    else match pl.city with
      | some c => if !c.isEmpty && c != "Remote" then some c else none
      | none => none)
  let location_parts :=
    match firstCity with
    | some c => [c]
    | none =>
      if p.location_places.any (fun pl => pl.city == some "Remote") then
        ["Remote"]
      else []
  let location :=
    if location_parts.isEmpty then none
    else some (String.intercalate ", " location_parts)
  let work_type :=
    if p.location_fullyRemote then "remote"
    else if truthyStr p.location_hybridDesc then "hybrid"
    else "on-site"
  let salaryFields :=
    match p.salary with
    | none => (none, none, none, none)
    | some s =>
      let stype := pyLower (s.salaryType.getD "")
      let ct : Option String :=
        if stype == "b2b" then some "B2B"
        else if stype == "uop" then some "UoP"
        else if stype == "uz" then some "UZ"
        else none
      (s.fromVal, s.toVal, some "month", ct)
  let techs := nfjTechs p.tiles_values
  let technologies :=
    if techs.isEmpty then none else some (String.intercalate ", " techs)
  let parts :=
    (if truthyStr p.category then ["Kategoria: " ++ p.category.getD ""] else []) ++
    (if !p.seniority.isEmpty then
      ["Poziom: " ++ String.intercalate ", " p.seniority] else []) ++
    (if !techs.isEmpty then
      ["Technologie: " ++ String.intercalate ", " techs] else [])
  let description :=
    if parts.isEmpty then none else some (String.intercalate " | " parts)
  { url := some url
    title := some (p.title.getD "")
    company := some (p.name.getD "")
    location := location
    description := description
    technologies := technologies
    salary_min := salaryFields.1
    salary_max := salaryFields.2.1
    salary_period := salaryFields.2.2.1
    work_type := some work_type
    contract_type := salaryFields.2.2.2
    employment_type := none
    valid_until := p.renewed.map (fun ms => toString (ms / 1000 + 2592000))
    source := none }

/-- Python `value.lower()` where the value may be `None`: `None` raises
`AttributeError`. -/
def pyLowerOpt : Option String → Except Unit String
  | none => Except.error ()
  | some s => Except.ok (pyLower s)

/-- Embedding of the per-posting body of
`NoFluffJobsScraper.scrape_page_by_page`: skip on a falsy slug, parse,
tag with the source name, lower title/description/technologies (an
exception here is caught by the per-offer handler and the posting is
skipped), apply the excluded-keyword substring filter, and return the
offer handed to `db_manager.insert_offer`, or `none` when the posting
is skipped. -/
def processPosting (excluded_keywords : List String) (p : NfjPosting) :
    Option OfferData :=
  match p.url with
  | none => none
  | some slug =>
    if slug.isEmpty then none
    else
      let offer := tagSource NoFluffJobsScraper.source_name
        (parse_api_posting p (nfjOfferUrl slug))
      match pyLowerOpt offer.title with
      | Except.error _ => none
      | Except.ok title_lower =>
        match pyLowerOpt offer.description with
        | Except.error _ => none
        | Except.ok desc_lower =>
          match pyLowerOpt offer.technologies with
          | Except.error _ => none
          | Except.ok tech_lower =>
            if excluded_keywords.any (fun ex =>
                strContains title_lower (pyLower ex) ||
                strContains desc_lower (pyLower ex) ||
                strContains tech_lower (pyLower ex)) then none
            else some offer

/-- The per-posting step together with the database write: the saved
count contributed by this posting and the table afterwards. -/
def processPostingWithDb (excluded_keywords : List String) (p : NfjPosting)
    (table : List RelRow) : Nat × List RelRow :=
  match processPosting excluded_keywords p with
  | none => (0, table)
  | some offer =>
    let res := DbAdapter.insert_offer offer true table
    (if res.1 then 1 else 0, res.2)

end NoFluffJobsScraper

/-- The parsed title is always a (possibly empty) string. -/
theorem nfj_parse_title (p : NfjPosting) (url : String) :
    (NoFluffJobsScraper.parse_api_posting p url).title =
      some (p.title.getD "") := rfl

/-- The parsed technologies value as a function of the requirement tiles. -/
theorem nfj_parse_technologies (p : NfjPosting) (url : String) :
    (NoFluffJobsScraper.parse_api_posting p url).technologies =
      (if (nfjTechs p.tiles_values).isEmpty then none
       else some (String.intercalate ", " (nfjTechs p.tiles_values))) := rfl

/-- The parsed description as a function of category, seniority and the
requirement tiles. -/
theorem nfj_parse_description (p : NfjPosting) (url : String) :
    (NoFluffJobsScraper.parse_api_posting p url).description =
      (let parts :=
        (if truthyStr p.category then
          ["Kategoria: " ++ p.category.getD ""] else []) ++
        (if !p.seniority.isEmpty then
          ["Poziom: " ++ String.intercalate ", " p.seniority] else []) ++
        (if !(nfjTechs p.tiles_values).isEmpty then
          ["Technologie: " ++ String.intercalate ", " (nfjTechs p.tiles_values)]
         else [])
      if parts.isEmpty then none
      else some (String.intercalate " | " parts)) := rfl

/-- C10: a NoFluffJobs posting whose parsed record has an absent
technologies value (no requirement tiles) or an absent description (no
category, seniority or technologies fragments) is never handed to the
writer and never persisted, for every excluded-keywords list including
the empty one: the `.lower()` call on the absent value raises, the
per-offer handler catches it, and the posting is skipped. -/
theorem C10_missing_fields_never_persisted (p : NfjPosting)
    (excluded : List String) (table : List RelRow)
    (h : (NoFluffJobsScraper.parse_api_posting p
            (nfjOfferUrl (p.url.getD ""))).technologies = none ∨
         (NoFluffJobsScraper.parse_api_posting p
            (nfjOfferUrl (p.url.getD ""))).description = none) :
    NoFluffJobsScraper.processPosting excluded p = none ∧
    NoFluffJobsScraper.processPostingWithDb excluded p table = (0, table) ∧
    (∀ url, ((NoFluffJobsScraper.parse_api_posting p url).technologies = none ↔
        nfjTechs p.tiles_values = []) ∧
      ((NoFluffJobsScraper.parse_api_posting p url).description = none ↔
        truthyStr p.category = false ∧ p.seniority = [] ∧
        nfjTechs p.tiles_values = [])) := by
  have hchar : ∀ url,
      ((NoFluffJobsScraper.parse_api_posting p url).technologies = none ↔
        nfjTechs p.tiles_values = []) ∧
      ((NoFluffJobsScraper.parse_api_posting p url).description = none ↔
        truthyStr p.category = false ∧ p.seniority = [] ∧
        nfjTechs p.tiles_values = []) := by
    intro url
    constructor
    · rw [nfj_parse_technologies]
      by_cases he : (nfjTechs p.tiles_values).isEmpty
      · simp [he, List.isEmpty_iff.mp he]
      · have : nfjTechs p.tiles_values ≠ [] := by
          intro hc; exact he (by simp [hc])
        simp [he, this]
    · rw [nfj_parse_description]
      dsimp only []
      by_cases h1 : truthyStr p.category
      · simp [h1]
      · by_cases h2 : p.seniority.isEmpty
        · by_cases h3 : (nfjTechs p.tiles_values).isEmpty
          · simp [Bool.eq_false_iff.mpr h1, h2, h3, List.isEmpty_iff.mp h2,
              List.isEmpty_iff.mp h3]
          · have : nfjTechs p.tiles_values ≠ [] := by
              intro hc; exact h3 (by simp [hc])
            simp [Bool.eq_false_iff.mpr h1, h2, h3, this]
        · have : p.seniority ≠ [] := by
            intro hc; exact h2 (by simp [hc])
          simp [Bool.eq_false_iff.mpr h1, h2, this]
  have hmain : NoFluffJobsScraper.processPosting excluded p = none := by
    unfold NoFluffJobsScraper.processPosting
    cases hurl : p.url with
    | none => rfl
    | some slug =>
      rw [hurl] at h
      simp only [Option.getD_some] at h
      dsimp only []
      by_cases hse : slug.isEmpty
      · rw [if_pos hse]
      · rw [if_neg hse]
        cases hdo : (NoFluffJobsScraper.parse_api_posting p
            (nfjOfferUrl slug)).description with
        | none =>
          rw [show (tagSource NoFluffJobsScraper.source_name
              (NoFluffJobsScraper.parse_api_posting p (nfjOfferUrl slug))).title =
              some (p.title.getD "") from nfj_parse_title p (nfjOfferUrl slug)]
          rw [show (tagSource NoFluffJobsScraper.source_name
              (NoFluffJobsScraper.parse_api_posting p (nfjOfferUrl slug))).description =
              none from hdo]
          rfl
        | some d =>
          rcases h with ht | hd
          · rw [show (tagSource NoFluffJobsScraper.source_name
                (NoFluffJobsScraper.parse_api_posting p (nfjOfferUrl slug))).title =
                some (p.title.getD "") from nfj_parse_title p (nfjOfferUrl slug)]
            rw [show (tagSource NoFluffJobsScraper.source_name
                (NoFluffJobsScraper.parse_api_posting p (nfjOfferUrl slug))).description =
                some d from hdo]
            rw [show (tagSource NoFluffJobsScraper.source_name
                (NoFluffJobsScraper.parse_api_posting p (nfjOfferUrl slug))).technologies =
                none from ht]
            rfl
          · exact absurd hdo (by rw [hd]; simp)
  refine ⟨hmain, ?_, hchar⟩
  unfold NoFluffJobsScraper.processPostingWithDb
  rw [hmain]

/-- Concrete NoFluffJobs posting with no requirement tiles, no category
and no seniority entries. -/
def nfjSamplePosting : NfjPosting :=
  { url := some "python-dev-acme", title := some "Python Developer",
    name := some "Acme" }

/-- Witness instantiating C10 at a concrete tile-less posting with an
empty store, including with a non-empty excluded-keywords list. -/
theorem C10_missing_fields_never_persisted_witness :
    NoFluffJobsScraper.processPosting [] nfjSamplePosting = none ∧
    NoFluffJobsScraper.processPostingWithDb [] nfjSamplePosting [] = (0, []) ∧
    ((NoFluffJobsScraper.parse_api_posting nfjSamplePosting
        (nfjOfferUrl "python-dev-acme")).technologies = none ↔
      nfjTechs nfjSamplePosting.tiles_values = []) := by
  have ht := C10_missing_fields_never_persisted nfjSamplePosting [] []
    (Or.inl (by decide))
  exact ⟨ht.1, ht.2.1, (ht.2.2 (nfjOfferUrl "python-dev-acme")).1⟩

/-!
## Regular-expression engine

`re.search` as used by the utilities is modelled with a small
backtracking matcher over character lists: ordered alternation, greedy
star and option, numbered capturing groups (last capture wins), and a
leftmost search that tries successive start positions.  This reproduces
the Python behaviour on the patterns below, all of whose starred
sub-expressions consume at least one character per iteration.  The
matcher burns one unit of fuel per constructor step; `reSearch` supplies
fuel that exceeds any possible nesting of the patterns used here.
-/

inductive RE where
  | eps
  | cls (f : Char → Bool)
  | seq (a b : RE)
  | alt (a b : RE)
  | star (a : RE)
  | opt (a : RE)
  | group (n : Nat) (a : RE)

/-- Record a capture, replacing any earlier capture of the same group. -/
def capSet (n : Nat) (v : String) : List (Nat × String) → List (Nat × String)
  | [] => [(n, v)]
  | (m, w) :: rest => if m = n then (n, v) :: rest else (m, w) :: capSet n v rest

/-- Read a capture. -/
def capGet (n : Nat) (caps : List (Nat × String)) : Option String :=
  (caps.find? (fun c => c.1 == n)).map Prod.snd

/-- Backtracking matcher in continuation-passing style.  Alternatives
are tried left first, `star` and `opt` greedily; a failing continuation
backtracks into the next alternative or shorter repetition, exactly the
order of Python's backtracking engine. -/
def reMatch (fuel : Nat) (r : RE) (s : List Char) (caps : List (Nat × String))
    (k : List Char → List (Nat × String) → Option (List (Nat × String))) :
    Option (List (Nat × String)) :=
  match fuel with
  | 0 => none
  | fuel + 1 =>
    match r with
    | .eps => k s caps
    | .cls f =>
      match s with
      | [] => none
      | c :: rest => if f c then k rest caps else none
    | .seq a b => reMatch fuel a s caps (fun s1 c1 => reMatch fuel b s1 c1 k)
    | .alt a b =>
      match reMatch fuel a s caps k with
      | some res => some res
      | none => reMatch fuel b s caps k
    | .star a =>
      match reMatch fuel a s caps (fun s1 c1 =>
          if s1.length < s.length then reMatch fuel (.star a) s1 c1 k
          else none) with
      | some res => some res
      | none => k s caps
    | .opt a =>
      match reMatch fuel a s caps k with
      | some res => some res
      | none => k s caps
    | .group n a =>
      reMatch fuel a s caps (fun s1 c1 =>
        k s1 (capSet n (String.mk (s.take (s.length - s1.length))) c1))

/-- Try a match at each start position, leftmost first. -/
def reSearchFrom (fuel : Nat) (r : RE) : List Char → Option (List (Nat × String))
  | [] => reMatch fuel r [] [] (fun _ caps => some caps)
  | c :: rest =>
    match reMatch fuel r (c :: rest) [] (fun _ caps => some caps) with
    | some caps => some caps
    | none => reSearchFrom fuel r rest

/-- Embedding of `re.search`: captures of the leftmost match, `none`
when the pattern matches nowhere. -/
def reSearch (r : RE) (s : String) : Option (List (Nat × String)) :=
  reSearchFrom (2 * s.data.length + 200) r s.data

/-- Number of capturing groups a pattern defines (`match.groups()`
always has this length). -/
def numGroups : RE → Nat
  | .eps => 0
  | .cls _ => 0
  | .seq a b => numGroups a + numGroups b
  | .alt a b => numGroups a + numGroups b
  | .star a => numGroups a
  | .opt a => numGroups a
  | .group _ a => numGroups a + 1

/-- Embedding of `match.groups()`: one entry per defined group, `none`
for a group that did not participate in the match. -/
def reGroups (r : RE) (caps : List (Nat × String)) : List (Option String) :=
  (List.range (numGroups r)).map (fun i => capGet (i + 1) caps)

/-- Case-insensitive literal character (`re.IGNORECASE`; ASCII folding,
which agrees with Python on every character of the patterns and inputs
used here). -/
def reLit (c : Char) : RE := .cls (fun x => pyLowerChar x == pyLowerChar c)

/-- Case-sensitive literal character. -/
def reLitC (c : Char) : RE := .cls (fun x => x == c)

/-- Case-insensitive literal string. -/
def reStr (s : String) : RE := s.data.foldr (fun c acc => .seq (reLit c) acc) .eps

/-- Case-sensitive literal string. -/
def reStrC (s : String) : RE := s.data.foldr (fun c acc => .seq (reLitC c) acc) .eps

/-- One-or-more repetition `X+`. -/
def rePlus (a : RE) : RE := .seq a (.star a)

/-- Digit test used by `\d` and number parsing. -/
def isDigitChar (c : Char) : Bool := 48 ≤ c.toNat && c.toNat ≤ 57

/-- Character class `\d` (ASCII digits, as matched by the patterns here). -/
def reDigit : RE := .cls isDigitChar

/-- Character class `\s` on the whitespace the inputs contain. -/
def reSpace : RE := RE.cls pyWhitespace

/-!
## Salary extraction (src/utils/helpers.py, extract_salary)
-/

/-- Sub-pattern `\d+(?:\s?\d{3})*`: digits, then zero or more groups of
an optional space and exactly three digits. -/
def spacedNumber : RE :=
  .seq (rePlus reDigit)
    (.star (.seq (.opt reSpace) (.seq reDigit (.seq reDigit (.seq reDigit .eps)))))

/-- Sub-pattern `(?:PLN|zł)`. -/
def currencyRe : RE := .alt (reStr "PLN") (reStr "zł")

/-- Sub-pattern `(?:/mies\.?|/miesiąc)?`. -/
def miesSuffix : RE :=
  .opt (.alt (.seq (reStr "/mies") (.seq (.opt (reLit '.')) .eps))
    (reStr "/miesiąc"))

/-- Pattern 1: range with spaced thousands,
`(\d+(?:\s?\d{3})*)\s*-\s*(\d+(?:\s?\d{3})*)\s*(?:PLN|zł)(?:/mies\.?|/miesiąc)?`. -/
def salaryP1 : RE :=
  .seq (.group 1 spacedNumber)
    (.seq (.star reSpace)
      (.seq (reLit '-')
        (.seq (.star reSpace)
          (.seq (.group 2 spacedNumber)
            (.seq (.star reSpace) (.seq currencyRe miesSuffix))))))

/-- Pattern 2: plain range,
`(\d+)\s*-\s*(\d+)\s*(?:PLN|zł)(?:/mies\.?|/miesiąc)?`. -/
def salaryP2 : RE :=
  .seq (.group 1 (rePlus reDigit))
    (.seq (.star reSpace)
      (.seq (reLit '-')
        (.seq (.star reSpace)
          (.seq (.group 2 (rePlus reDigit))
            (.seq (.star reSpace) (.seq currencyRe miesSuffix))))))

/-- Pattern 3: k-notation range, `(\d+)k\s*-\s*(\d+)k\s*(?:PLN|zł)`. -/
def salaryP3 : RE :=
  .seq (.group 1 (rePlus reDigit))
    (.seq (reLit 'k')
      (.seq (.star reSpace)
        (.seq (reLit '-')
          (.seq (.star reSpace)
            (.seq (.group 2 (rePlus reDigit))
              (.seq (reLit 'k') (.seq (.star reSpace) (.seq currencyRe .eps))))))))

/-- Pattern 4: single value,
`(\d+(?:\s?\d{3})*)\s*(?:PLN|zł)(?:/mies\.?|/miesiąc)?`. -/
def salaryP4 : RE :=
  .seq (.group 1 spacedNumber)
    (.seq (.star reSpace) (.seq currencyRe miesSuffix))

/-- The pattern list of `extract_salary`, in source order. -/
def salaryPatterns : List RE := [salaryP1, salaryP2, salaryP3, salaryP4]

/-- Digit-string value, `none` when the string is empty or not all
digits (where Python `float` would raise `ValueError`). -/
def digitsToNat? (cs : List Char) : Option Nat :=
  if cs.isEmpty || !cs.all isDigitChar then none
  else some (cs.foldl (fun acc c => acc * 10 + (c.toNat - 48)) 0)

/-- Embedding of `_parse_number` (src/utils/helpers.py): strip ASCII
spaces, honour a trailing `k` as a factor of 1000, parse the rest as a
number, and return 0.0 on parse failure.  The strings this receives are
regex captures of digits and spaces, so the digit-only parse coincides
with Python `float` on every reachable input. -/
def _parse_number (text : String) : ℚ :=
  let t := text.data.filter (fun c => !(c == ' '))
  if (t.getLast?.map pyLowerChar) == some 'k' then
    match digitsToNat? t.dropLast with
    | some n => (n : ℚ) * 1000
    | none => 0
  else
    match digitsToNat? t with
    | some n => (n : ℚ)
    | none => 0

/-- Result dictionary of `extract_salary`. -/
structure SalaryResult where
  salary_min : Option ℚ
  salary_max : Option ℚ
  salary_period : Option String
  deriving Repr, DecidableEq

/-- Hourly-period indicator substrings, in source order. -/
def hourIndicators : List String :=
  ["/h", "/godz", "godzin", "na godzinę", "za godzinę", "stawka godzinowa"]

/-- Monthly-period indicator substrings, in source order. -/
def monthIndicators : List String :=
  ["/mies", "miesiąc", "miesięcznie", "na miesiąc"]

/-- First pattern of the list that `re.search` finds in the text,
together with its `match.groups()`. -/
def firstMatch : List RE → String → Option (RE × List (Option String))
  | [], _ => none
  | p :: rest, text =>
    match reSearch p text with
    | some caps => some (p, reGroups p caps)
    | none => firstMatch rest text

/-- Embedding of `extract_salary` (src/utils/helpers.py).  A group that
did not participate in a match would make the Python code raise inside
`_parse_number`; no group of the four patterns is optional, so that
case is unreachable and the embedding leaves the fields unset there. -/
def extract_salary (text : String) : SalaryResult :=
  if text.isEmpty then ⟨none, none, none⟩
  else
    let text_lower := pyLower text
    let is_hourly := hourIndicators.any (fun ind => strContains text_lower ind)
    let period0 : Option String :=
      if is_hourly then some "hour"
      else if monthIndicators.any (fun ind => strContains text_lower ind) then
        some "month"
      else some "month"
    match firstMatch salaryPatterns text with
    | none => ⟨none, none, period0⟩
    | some (_, groups) =>
      let period := if is_hourly then some "hour" else period0
      if 2 ≤ groups.length then
        match groups.get? 0, groups.get? 1 with
        | some (some g1), some (some g2) =>
          ⟨some (_parse_number g1), some (_parse_number g2), period⟩
        | _, _ => ⟨none, none, period⟩
      else if groups.length == 1 then
        match groups.get? 0 with
        | some (some g) => ⟨some (_parse_number g), some (_parse_number g), period⟩
        | _ => ⟨none, none, period⟩
      else ⟨none, none, period⟩

/-- The period `extract_salary` reports: hour on an hourly indicator,
otherwise month. -/
def salaryPeriodOf (text : String) : Option String :=
  if hourIndicators.any (fun ind => strContains (pyLower text) ind) then
    some "hour"
  else some "month"

/-- C7: the documented example evaluations hold; in general the four
salary patterns are tried in source order, the first pattern that
matches wins, a two-group match sets salary_min and salary_max from the
two captured numbers, a one-group match sets both to the same value,
and the period is hour exactly on an hourly indicator, else month. -/
theorem C7_extract_salary :
    extract_salary "10 000 - 15 000 PLN/mies." =
      ⟨some 10000, some 15000, some "month"⟩ ∧
    extract_salary "50 PLN/h" = ⟨some 50, some 50, some "hour"⟩ ∧
    (∀ text, text.isEmpty = false →
      (∀ caps g1 g2, reSearch salaryP1 text = some caps →
        reGroups salaryP1 caps = [some g1, some g2] →
        extract_salary text =
          ⟨some (_parse_number g1), some (_parse_number g2),
            salaryPeriodOf text⟩) ∧
      (reSearch salaryP1 text = none →
        ∀ caps g1 g2, reSearch salaryP2 text = some caps →
        reGroups salaryP2 caps = [some g1, some g2] →
        extract_salary text =
          ⟨some (_parse_number g1), some (_parse_number g2),
            salaryPeriodOf text⟩) ∧
      (reSearch salaryP1 text = none → reSearch salaryP2 text = none →
        ∀ caps g1 g2, reSearch salaryP3 text = some caps →
        reGroups salaryP3 caps = [some g1, some g2] →
        extract_salary text =
          ⟨some (_parse_number g1), some (_parse_number g2),
            salaryPeriodOf text⟩) ∧
      (reSearch salaryP1 text = none → reSearch salaryP2 text = none →
        reSearch salaryP3 text = none →
        ∀ caps g, reSearch salaryP4 text = some caps →
        reGroups salaryP4 caps = [some g] →
        extract_salary text =
          ⟨some (_parse_number g), some (_parse_number g),
            salaryPeriodOf text⟩)) := by
  refine ⟨by decide, by decide, ?_⟩
  intro text hne
  refine ⟨?_, ?_, ?_, ?_⟩
  · intro caps g1 g2 hs hg
    unfold extract_salary
    rw [if_neg (by simp [hne])]
    have hfm : firstMatch salaryPatterns text =
        some (salaryP1, reGroups salaryP1 caps) := by
      simp only [salaryPatterns, firstMatch, hs]
    simp only [hfm, hg]
    by_cases hh : hourIndicators.any (fun ind => strContains (pyLower text) ind)
    · simp [hh, salaryPeriodOf]
    · simp [hh, salaryPeriodOf]
  · intro h1 caps g1 g2 hs hg
    unfold extract_salary
    rw [if_neg (by simp [hne])]
    have hfm : firstMatch salaryPatterns text =
        some (salaryP2, reGroups salaryP2 caps) := by
      simp only [salaryPatterns, firstMatch, h1, hs]
    simp only [hfm, hg]
    by_cases hh : hourIndicators.any (fun ind => strContains (pyLower text) ind)
    · simp [hh, salaryPeriodOf]
    · simp [hh, salaryPeriodOf]
  · intro h1 h2 caps g1 g2 hs hg
    unfold extract_salary
    rw [if_neg (by simp [hne])]
    have hfm : firstMatch salaryPatterns text =
        some (salaryP3, reGroups salaryP3 caps) := by
      simp only [salaryPatterns, firstMatch, h1, h2, hs]
    simp only [hfm, hg]
    by_cases hh : hourIndicators.any (fun ind => strContains (pyLower text) ind)
    · simp [hh, salaryPeriodOf]
    · simp [hh, salaryPeriodOf]
  · intro h1 h2 h3 caps g hs hg
    unfold extract_salary
    rw [if_neg (by simp [hne])]
    have hfm : firstMatch salaryPatterns text =
        some (salaryP4, reGroups salaryP4 caps) := by
      simp only [salaryPatterns, firstMatch, h1, h2, h3, hs]
    simp only [hfm, hg]
    by_cases hh : hourIndicators.any (fun ind => strContains (pyLower text) ind)
    · simp [hh, salaryPeriodOf]
    · simp [hh, salaryPeriodOf]

/-- Witness instantiating the pattern-order clause of C7 on the
single-value example, discharging every hypothesis by evaluation. -/
theorem C7_extract_salary_witness :
    extract_salary "50 PLN/h" =
      ⟨some (_parse_number "50"), some (_parse_number "50"),
        salaryPeriodOf "50 PLN/h"⟩ :=
  (C7_extract_salary.2.2 "50 PLN/h" (by decide)).2.2.2 (by decide) (by decide)
    (by decide) [(1, "50")] "50" (by decide) (by decide)

/-!
## Valid-until date parsing (src/utils/helpers.py, parse_valid_until_date)

`date.today()` is passed explicitly as the reference date.
-/

structure PyDate where
  year : Nat
  month : Nat
  day : Nat
  deriving Repr, DecidableEq

/-- The `polish_months` table, in source order. -/
def polishMonths : List (String × Nat) :=
  [("sty", 1), ("stycznia", 1), ("styczeń", 1),
   ("lut", 2), ("lutego", 2), ("luty", 2),
   ("mar", 3), ("marca", 3), ("marzec", 3),
   ("kwi", 4), ("kwietnia", 4), ("kwiecień", 4),
   ("maj", 5), ("maja", 5),
   ("cze", 6), ("czerwca", 6), ("czerwiec", 6),
   ("lip", 7), ("lipca", 7), ("lipiec", 7),
   ("sie", 8), ("sierpnia", 8), ("sierpień", 8),
   ("wrz", 9), ("września", 9), ("wrzesień", 9),
   ("paź", 10), ("października", 10), ("październik", 10),
   ("lis", 11), ("listopada", 11), ("listopad", 11),
   ("gru", 12), ("grudnia", 12), ("grudzień", 12)]

/-- The `english_months` table, in source order. -/
def englishMonths : List (String × Nat) :=
  [("jan", 1), ("january", 1),
   ("feb", 2), ("february", 2),
   ("mar", 3), ("march", 3),
   ("apr", 4), ("april", 4),
   ("may", 5),
   ("jun", 6), ("june", 6),
   ("jul", 7), ("july", 7),
   ("aug", 8), ("august", 8),
   ("sep", 9), ("september", 9),
   ("oct", 10), ("october", 10),
   ("nov", 11), ("november", 11),
   ("dec", 12), ("december", 12)]

/-- Dictionary `get` on a month table. -/
def monthLookup (table : List (String × Nat)) (k : String) : Option Nat :=
  (table.find? (fun kv => kv.1 == k)).map Prod.snd

/-- Month resolution: the Polish table first, then the English one. -/
def monthOfName (name : String) : Option Nat :=
  match monthLookup polishMonths name with
  | some m => some m
  | none => monthLookup englishMonths name

/-- The letter class `[a-ząćęłńóśźż]`. -/
def isPolishLetterLower (c : Char) : Bool :=
  (97 ≤ c.toNat && c.toNat ≤ 122) || c == 'ą' || c == 'ć' || c == 'ę' ||
  c == 'ł' || c == 'ń' || c == 'ó' || c == 'ś' || c == 'ź' || c == 'ż'

/-- The pattern `(?:to|do)\s+(\d+)\s+([a-ząćęłńóśźż]+)`, searched in the
lowered date text. -/
def dateRe : RE :=
  .seq (.alt (reStrC "to") (reStrC "do"))
    (.seq (rePlus reSpace)
      (.seq (.group 1 (rePlus reDigit))
        (.seq (rePlus reSpace)
          (.seq (.group 2 (rePlus (RE.cls isPolishLetterLower))) .eps))))

/-- Gregorian leap-year rule used by `datetime.date`. -/
def isLeapYear (y : Nat) : Bool :=
  y % 4 == 0 && (y % 100 != 0 || y % 400 == 0)

/-- Days in a month, as validated by the `date(year, month, day)`
constructor. -/
def daysInMonth (year month : Nat) : Nat :=
  if month == 2 then (if isLeapYear year then 29 else 28)
  else if month == 4 || month == 6 || month == 9 || month == 11 then 30
  else 31

/-- Two-digit zero padding. -/
def pad2 (n : Nat) : String := if n < 10 then "0" ++ toString n else toString n

/-- Four-digit zero padding. -/
def pad4 (n : Nat) : String :=
  if n < 10 then "000" ++ toString n
  else if n < 100 then "00" ++ toString n
  else if n < 1000 then "0" ++ toString n
  else toString n

/-- Embedding of `date.isoformat()`. -/
def isoFormat (d : PyDate) : String :=
  pad4 d.year ++ "-" ++ pad2 d.month ++ "-" ++ pad2 d.day

/-- Embedding of `parse_valid_until_date` (src/utils/helpers.py) with
the reference date passed explicitly.  A day outside the month's range
makes `date(...)` raise `ValueError`, which the function catches and
turns into `None`. -/
def parse_valid_until_date (today : PyDate) (date_text : String) :
    Option String :=
  if date_text.isEmpty then none
  else
    match reSearch dateRe (pyLower date_text) with
    | none => none
    | some caps =>
      match capGet 1 caps, capGet 2 caps with
      | some ds, some mn =>
        let day := (digitsToNat? ds.data).getD 0
        let month_name := pyLower (pyStrip mn)
        match monthOfName month_name with
        | none => none
        | some month =>
          let year :=
            if month < today.month ∨ (month = today.month ∧ day < today.day)
            then today.year + 1 else today.year
          if 1 ≤ day ∧ day ≤ daysInMonth year month then
            some (isoFormat ⟨year, month, day⟩)
          else none
      | _, _ => none

/-- C8: the two documented examples hold, and in general, for every
date text whose lowered form matches the to/do day month-name pattern
with a recognized month name, the year is the next calendar year
exactly when the parsed month is before the reference month, or equal
to it with a day before the reference day; otherwise the current year. -/
theorem C8_parse_valid_until_date :
    parse_valid_until_date ⟨2025, 3, 1⟩ "do 19 lut" = some "2026-02-19" ∧
    parse_valid_until_date ⟨2025, 1, 10⟩ "to 21 Feb" = some "2025-02-21" ∧
    (∀ (today : PyDate) (text : String) (caps : List (Nat × String))
      (ds mn : String) (month day : Nat),
      text.isEmpty = false →
      reSearch dateRe (pyLower text) = some caps →
      capGet 1 caps = some ds →
      capGet 2 caps = some mn →
      monthOfName (pyLower (pyStrip mn)) = some month →
      day = (digitsToNat? ds.data).getD 0 →
      parse_valid_until_date today text =
        (let year :=
          if month < today.month ∨ (month = today.month ∧ day < today.day)
          then today.year + 1 else today.year
         if 1 ≤ day ∧ day ≤ daysInMonth year month then
           some (isoFormat ⟨year, month, day⟩)
         else none)) := by
  refine ⟨by decide, by decide, ?_⟩
  intro today text caps ds mn month day hne hs h1 h2 hm hd
  unfold parse_valid_until_date
  rw [if_neg (by simp [hne])]
  rw [hs]
  dsimp only []
  rw [h1, h2]
  dsimp only []
  rw [hm]
  rw [hd]

/-- Witness instantiating the year-inference clause of C8 on the
concrete Polish example with its reference date. -/
theorem C8_parse_valid_until_date_witness :
    parse_valid_until_date ⟨2025, 3, 1⟩ "do 19 lut" =
      (let year :=
        if 2 < (3 : Nat) ∨ (2 = (3 : Nat) ∧ 19 < (1 : Nat))
        then 2025 + 1 else 2025
       if 1 ≤ (19 : Nat) ∧ 19 ≤ daysInMonth year 2 then
         some (isoFormat ⟨year, 2, 19⟩)
       else none) :=
  C8_parse_valid_until_date.2.2 ⟨2025, 3, 1⟩ "do 19 lut"
    [(1, "19"), (2, "lut")] "19" "lut" 2 19 (by decide) (by decide)
    (by decide) (by decide) (by decide) (by decide)

/-!
## URL normalization (src/utils/helpers.py, normalize_url)

`urllib.parse.urlparse` / `urlunparse` are embedded following the
CPython algorithm (scheme split at the first colon when the prefix is a
valid scheme starting with an ASCII letter, lowercasing the scheme;
netloc split after `//` up to the first of `/?#`; fragment then query
split; path parameters split at the first semicolon of the last path
segment; tab/CR/LF removed up front; a bracket-mismatched netloc raises
`ValueError`).  The non-ASCII NFKC netloc check and bracketed-host
validation of newer CPython are not modelled; they only turn more
inputs into the parse-failure branch, which returns the input unchanged
either way.  All functions work on character lists. -/

/-- Characters `urlsplit` removes from the URL before parsing. -/
def unsafeUrlChar (c : Char) : Bool := c == '\t' || c == '\r' || c == '\n'

/-- Embedding of the `_UNSAFE_URL_BYTES_TO_REMOVE` replacement loop. -/
def stripUnsafe (l : List Char) : List Char := l.filter (fun c => !unsafeUrlChar c)

/-- The `_WHATWG_C0_CONTROL_OR_SPACE` class stripped from the left of
the URL. -/
def c0Space (c : Char) : Bool := c.toNat ≤ 32

/-- The `uses_netloc` scheme list of `urllib.parse`. -/
def uses_netloc : List String :=
  ["", "ftp", "http", "gopher", "nntp", "telnet", "imap", "wais", "file",
   "mms", "https", "shttp", "snews", "prospero", "rtsp", "rtsps", "rtspu",
   "rsync", "svn", "svn+ssh", "sftp", "nfs", "git", "git+ssh", "ws", "wss"]

/-- The `uses_params` scheme list of `urllib.parse`. -/
def uses_params : List String :=
  ["", "ftp", "hdl", "prospero", "http", "imap", "https", "shttp", "rtsp",
   "rtsps", "rtspu", "sip", "sips", "mms", "sftp", "tel"]

/-- `scheme in uses_netloc`. -/
def schemeUsesNetloc (scheme : List Char) : Bool :=
  uses_netloc.contains (String.mk scheme)

/-- `scheme in uses_params`. -/
def schemeUsesParams (scheme : List Char) : Bool :=
  uses_params.contains (String.mk scheme)

/-- ASCII letter test (`url[0].isascii() and url[0].isalpha()`). -/
def isAsciiAlpha (c : Char) : Bool :=
  (65 ≤ c.toNat && c.toNat ≤ 90) || (97 ≤ c.toNat && c.toNat ≤ 122)

/-- Membership in `scheme_chars`: ASCII letters, digits, `+`, `-`, `.`. -/
def schemeChar (c : Char) : Bool :=
  isAsciiAlpha c || (48 ≤ c.toNat && c.toNat ≤ 57) ||
  c == '+' || c == '-' || c == '.'

/-- Python `s.split(sep, 1)`: the part before the first separator and,
when the separator occurs, the part after it. -/
def splitOnce (sep : Char) : List Char → List Char × Option (List Char)
  | [] => ([], none)
  | x :: rest =>
    if x == sep then ([], some rest)
    else
      let r := splitOnce sep rest
      (x :: r.1, r.2)

/-- Delimiters ending the netloc in `_splitnetloc`. -/
def netlocStop (c : Char) : Bool := c == '/' || c == '?' || c == '#'

/-- Embedding of `_splitnetloc` (after the leading `//` was dropped). -/
def splitNetlocChars : List Char → List Char × List Char
  | [] => ([], [])
  | c :: rest =>
    if netlocStop c then ([], c :: rest)
    else
      let r := splitNetlocChars rest
      (c :: r.1, r.2)

/-- Embedding of the scheme split of `urlsplit`: the text before the
first colon becomes the (lowercased) scheme when that colon is not the
first character, the first character is an ASCII letter, and every
character before the colon is a scheme character; otherwise the URL is
left whole and the scheme is empty. -/
def splitScheme (url : List Char) : List Char × List Char :=
  match splitOnce ':' url with
  | (_, none) => ([], url)
  | ([], some _) => ([], url)
  | (b :: bs, some rest) =>
    if isAsciiAlpha b && (b :: bs).all schemeChar then
      ((b :: bs).map pyLowerChar, rest)
    else ([], url)

structure SplitResult where
  scheme : List Char
  netloc : List Char
  path : List Char
  query : List Char
  fragment : List Char
  deriving Repr, DecidableEq

/-- The `Invalid IPv6 URL` condition of `urlsplit`. -/
def bracketMismatch (netloc : List Char) : Bool :=
  (netloc.contains '[' && !netloc.contains ']') ||
  (netloc.contains ']' && !netloc.contains '[')

/-- Embedding of `urllib.parse.urlsplit`; `none` is a raised
`ValueError`. -/
def urlsplitChars (url0 : List Char) : Option SplitResult :=
  let url1 := stripUnsafe (url0.dropWhile c0Space)
  let sr := splitScheme url1
  if sr.2.take 2 = ['/', '/'] then
    let nr := splitNetlocChars (sr.2.drop 2)
    if bracketMismatch nr.1 then none
    else
      let fr := splitOnce '#' nr.2
      let qr := splitOnce '?' fr.1
      some ⟨sr.1, nr.1, qr.1, (qr.2).getD [], (fr.2).getD []⟩
  else
    let fr := splitOnce '#' sr.2
    let qr := splitOnce '?' fr.1
    some ⟨sr.1, [], qr.1, (qr.2).getD [], (fr.2).getD []⟩

structure ParseResult where
  scheme : List Char
  netloc : List Char
  path : List Char
  params : List Char
  query : List Char
  fragment : List Char
  deriving Repr, DecidableEq

/-- Embedding of `_splitparams`, guarded by `';' in url` as in
`urlparse`: parameters start at the first semicolon of the last path
segment (of the whole path when it has no slash). -/
def splitParamsChars (url : List Char) : List Char × List Char :=
  if url.contains ';' then
    match splitOnce '/' url.reverse with
    | (_, none) =>
      match splitOnce ';' url with
      | (a, some b) => (a, b)
      | (_, none) => (url, [])
    | (revTail, some revPre) =>
      match splitOnce ';' revTail.reverse with
      | (a, some b) => (revPre.reverse ++ '/' :: a, b)
      | (_, none) => (url, [])
  else (url, [])

/-- Embedding of `urllib.parse.urlparse`: parameters are split only for
a scheme in `uses_params` whose path contains a semicolon. -/
def urlparseChars (url : List Char) : Option ParseResult :=
  (urlsplitChars url).map (fun s =>
    if schemeUsesParams s.scheme && s.path.contains ';' then
      let pr := splitParamsChars s.path
      ⟨s.scheme, s.netloc, pr.1, pr.2, s.query, s.fragment⟩
    else ⟨s.scheme, s.netloc, s.path, [], s.query, s.fragment⟩)

/-- Embedding of `urllib.parse.urlunsplit` (CPython 3.11): the `//`
marker is re-added when the netloc is truthy, or when the scheme is
truthy, uses a netloc, and the path does not already start with `//`. -/
def urlunsplitChars (scheme netloc url query fragment : List Char) :
    List Char :=
  let url1 :=
    if !netloc.isEmpty ||
        (!scheme.isEmpty && schemeUsesNetloc scheme &&
          !decide (url.take 2 = ['/', '/'])) then
      '/' :: '/' :: (netloc ++
        (if !url.isEmpty && !(url.head? == some '/') then '/' :: url else url))
    else url
  let url2 := if !scheme.isEmpty then scheme ++ ':' :: url1 else url1
  let url3 := if !query.isEmpty then url2 ++ '?' :: query else url2
  if !fragment.isEmpty then url3 ++ '#' :: fragment else url3

/-- Embedding of `urllib.parse.urlunparse`. -/
def urlunparseChars (p : ParseResult) : List Char :=
  let url := if !p.params.isEmpty then p.path ++ ';' :: p.params else p.path
  urlunsplitChars p.scheme p.netloc url p.query p.fragment

/-- Embedding of `normalize_url` (src/utils/helpers.py): parse, rebuild
with the query and fragment emptied, and return the input unchanged
when parsing raises. -/
def normalize_url (url : String) : String :=
  match urlparseChars url.data with
  | none => url
  | some p =>
    String.mk (urlunparseChars ⟨p.scheme, p.netloc, p.path, p.params, [], []⟩)

/-- Unfolding equation of `splitOnce` on a cons cell. -/
theorem splitOnce_cons (sep c : Char) (rest : List Char) :
    splitOnce sep (c :: rest) =
      (if (c == sep) = true then ([], some rest)
       else (c :: (splitOnce sep rest).1, (splitOnce sep rest).2)) := rfl

/-- A separator-free list is returned whole by `splitOnce`. -/
theorem splitOnce_of_not_mem (sep : Char) (l : List Char)
    (h : ∀ x ∈ l, (x == sep) = false) : splitOnce sep l = (l, none) := by
  induction l with
  | nil => rfl
  | cons c rest ih =>
    rw [splitOnce_cons]
    rw [if_neg (by simp [h c (List.mem_cons_self c rest)])]
    rw [ih (fun x hx => h x (List.mem_cons_of_mem c hx))]

/-- `splitOnce` cuts at the first separator. -/
theorem splitOnce_append (sep : Char) (a b : List Char)
    (h : ∀ x ∈ a, (x == sep) = false) :
    splitOnce sep (a ++ sep :: b) = (a, some b) := by
  induction a with
  | nil => simp [splitOnce_cons]
  | cons c rest ih =>
    rw [List.cons_append, splitOnce_cons]
    rw [if_neg (by simp [h c (List.mem_cons_self c rest)])]
    rw [ih (fun x hx => h x (List.mem_cons_of_mem c hx))]

/-- Inversion of a successful `splitOnce`. -/
theorem splitOnce_some_inv (sep : Char) (l a b : List Char)
    (h : splitOnce sep l = (a, some b)) :
    l = a ++ sep :: b ∧ ∀ x ∈ a, (x == sep) = false := by
  induction l generalizing a with
  | nil => simp [splitOnce] at h
  | cons c rest ih =>
    rw [splitOnce_cons] at h
    by_cases hc : (c == sep) = true
    · rw [if_pos hc] at h
      rw [Prod.mk.injEq, Option.some.injEq] at h
      obtain ⟨h1, h2⟩ := h
      subst h1
      subst h2
      refine ⟨?_, by intro x hx; simp at hx⟩
      rw [show c = sep from by simpa using hc]
      rfl
    · rw [if_neg hc] at h
      rw [Prod.mk.injEq] at h
      obtain ⟨h1, h2⟩ := h
      rcases hsp : splitOnce sep rest with ⟨a1, o1⟩
      rw [hsp] at h1 h2
      simp only [] at h1 h2
      subst h2
      obtain ⟨hl, hfree⟩ := ih a1 hsp
      subst h1
      constructor
      · rw [List.cons_append, ← hl]
      · intro x hx
        rcases List.mem_cons.mp hx with hx1 | hx2
        · rw [hx1]; simpa using hc
        · exact hfree x hx2

/-- Inversion of an unsuccessful `splitOnce`. -/
theorem splitOnce_none_inv (sep : Char) (l a : List Char)
    (h : splitOnce sep l = (a, none)) :
    a = l ∧ ∀ x ∈ l, (x == sep) = false := by
  induction l generalizing a with
  | nil =>
    simp only [splitOnce] at h
    rw [Prod.mk.injEq] at h
    exact ⟨h.1.symm, by intro x hx; simp at hx⟩
  | cons c rest ih =>
    rw [splitOnce_cons] at h
    by_cases hc : (c == sep) = true
    · rw [if_pos hc] at h
      rw [Prod.mk.injEq] at h
      simp at h
    · rw [if_neg hc] at h
      rw [Prod.mk.injEq] at h
      obtain ⟨h1, h2⟩ := h
      rcases hsp : splitOnce sep rest with ⟨a1, o1⟩
      rw [hsp] at h1 h2
      simp only [] at h1 h2
      subst h2
      obtain ⟨hl, hfree⟩ := ih a1 hsp
      subst hl
      constructor
      · rw [← h1]
      · intro x hx
        rcases List.mem_cons.mp hx with hx1 | hx2
        · rw [hx1]; simpa using hc
        · exact hfree x hx2

/-- Unfolding equation of `splitNetlocChars` on a cons cell. -/
theorem splitNetloc_cons (c : Char) (rest : List Char) :
    splitNetlocChars (c :: rest) =
      (if netlocStop c = true then ([], c :: rest)
       else (c :: (splitNetlocChars rest).1, (splitNetlocChars rest).2)) := rfl

/-- Inversion of `splitNetlocChars`. -/
theorem splitNetloc_inv (l n r : List Char)
    (h : splitNetlocChars l = (n, r)) :
    l = n ++ r ∧ (∀ x ∈ n, netlocStop x = false) ∧
    (r = [] ∨ ∃ y t, r = y :: t ∧ netlocStop y = true) := by
  induction l generalizing n with
  | nil =>
    simp only [splitNetlocChars] at h
    rw [Prod.mk.injEq] at h
    obtain ⟨h1, h2⟩ := h
    subst h1; subst h2
    exact ⟨rfl, by intro x hx; simp at hx, Or.inl rfl⟩
  | cons c rest ih =>
    rw [splitNetloc_cons] at h
    by_cases hc : netlocStop c = true
    · rw [if_pos hc] at h
      rw [Prod.mk.injEq] at h
      obtain ⟨h1, h2⟩ := h
      subst h1; subst h2
      exact ⟨rfl, by intro x hx; simp at hx, Or.inr ⟨c, rest, rfl, hc⟩⟩
    · rw [if_neg hc] at h
      rw [Prod.mk.injEq] at h
      obtain ⟨h1, h2⟩ := h
      rcases hsp : splitNetlocChars rest with ⟨n1, r1⟩
      rw [hsp] at h1 h2
      simp only [] at h1 h2
      subst h2
      obtain ⟨hl, hfree, hr⟩ := ih n1 hsp
      subst h1
      refine ⟨by rw [List.cons_append, ← hl], ?_, hr⟩
      intro x hx
      rcases List.mem_cons.mp hx with hx1 | hx2
      · rw [hx1]; simpa using hc
      · exact hfree x hx2

/-- Rebuilding `splitNetlocChars` on a stop-free netloc followed by a
rest that is empty or starts with a stop character. -/
theorem splitNetloc_rejoin (n r : List Char)
    (hn : ∀ x ∈ n, netlocStop x = false)
    (hr : r = [] ∨ ∃ y t, r = y :: t ∧ netlocStop y = true) :
    splitNetlocChars (n ++ r) = (n, r) := by
  induction n with
  | nil =>
    rcases hr with h0 | ⟨y, t, hyt, hy⟩
    · subst h0; rfl
    · subst hyt
      rw [List.nil_append, splitNetloc_cons, if_pos hy]
  | cons c rest ih =>
    rw [List.cons_append, splitNetloc_cons]
    rw [if_neg (by simp [hn c (List.mem_cons_self c rest)])]
    rw [ih (fun x hx => hn x (List.mem_cons_of_mem c hx))]

/-- The first component of `splitOnce` starts where the input starts. -/
theorem splitOnce_head (sep : Char) (l : List Char) (a : List Char)
    (ha : (splitOnce sep l).1 = a) (hne : a ≠ []) :
    a.head? = l.head? := by
  rcases hsp : splitOnce sep l with ⟨a1, o1⟩
  rw [hsp] at ha
  simp only [] at ha
  subst ha
  cases o1 with
  | none =>
    obtain ⟨h1, _⟩ := splitOnce_none_inv sep l a1 hsp
    rw [h1]
  | some b =>
    obtain ⟨h1, _⟩ := splitOnce_some_inv sep l a1 b hsp
    rw [h1]
    cases a1 with
    | nil => exact absurd rfl hne
    | cons x xs => rfl

/-- Valid small codepoints survive the `Char.ofNat` round trip. -/
theorem toNat_ofNat_small (m : Nat) (h : m < 55296) :
    (Char.ofNat m).toNat = m := by
  unfold Char.ofNat
  rw [dif_pos (Or.inl h)]
  rfl

/-- Code point of an ASCII-lowercased character. -/
theorem pyLowerChar_toNat (c : Char) :
    (pyLowerChar c).toNat =
      (if 65 ≤ c.toNat ∧ c.toNat ≤ 90 then c.toNat + 32 else c.toNat) := by
  unfold pyLowerChar
  by_cases h : 65 ≤ c.toNat ∧ c.toNat ≤ 90
  · rw [if_pos h, if_pos h, toNat_ofNat_small _ (by omega)]
  · rw [if_neg h, if_neg h]

/-- ASCII lowercasing is idempotent. -/
theorem pyLowerChar_idem (c : Char) :
    pyLowerChar (pyLowerChar c) = pyLowerChar c := by
  have h1 := pyLowerChar_toNat c
  have h : ¬(65 ≤ (pyLowerChar c).toNat ∧ (pyLowerChar c).toNat ≤ 90) := by
    by_cases h2 : 65 ≤ c.toNat ∧ c.toNat ≤ 90 <;> simp [h2] at h1 <;> omega
  rw [show pyLowerChar (pyLowerChar c) =
    (if 65 ≤ (pyLowerChar c).toNat ∧ (pyLowerChar c).toNat ≤ 90 then
      Char.ofNat ((pyLowerChar c).toNat + 32) else pyLowerChar c) from rfl]
  rw [if_neg h]

/-- Characters are equal when their code points are. -/
theorem char_eq_of_toNat_eq {a b : Char} (h : a.toNat = b.toNat) : a = b :=
  Char.eq_of_val_eq (UInt32.ext h)

/-- Character equality testing through code points. -/
theorem char_beq_iff_toNat {a b : Char} : (a == b) = true ↔ a.toNat = b.toNat := by
  rw [beq_iff_eq]
  constructor
  · intro h; rw [h]
  · exact char_eq_of_toNat_eq

theorem plus_toNat : ('+' : Char).toNat = 43 := by decide

theorem dash_toNat : ('-' : Char).toNat = 45 := by decide

theorem dot_toNat : ('.' : Char).toNat = 46 := by decide

theorem colon_toNat : (':' : Char).toNat = 58 := by decide

theorem slash_toNat : ('/' : Char).toNat = 47 := by decide

theorem query_toNat : ('?' : Char).toNat = 63 := by decide

theorem hash_toNat : ('#' : Char).toNat = 35 := by decide

/-- `schemeChar` through code points. -/
theorem schemeChar_iff (c : Char) :
    schemeChar c = true ↔
      (65 ≤ c.toNat ∧ c.toNat ≤ 90) ∨ (97 ≤ c.toNat ∧ c.toNat ≤ 122) ∨
      (48 ≤ c.toNat ∧ c.toNat ≤ 57) ∨ c.toNat = 43 ∨ c.toNat = 45 ∨
      c.toNat = 46 := by
  unfold schemeChar isAsciiAlpha
  simp only [Bool.or_eq_true, Bool.and_eq_true, decide_eq_true_eq,
    char_beq_iff_toNat, plus_toNat, dash_toNat, dot_toNat]
  constructor
  · intro h
    omega
  · intro h
    omega

/-- `isAsciiAlpha` through code points. -/
theorem isAsciiAlpha_iff (c : Char) :
    isAsciiAlpha c = true ↔
      (65 ≤ c.toNat ∧ c.toNat ≤ 90) ∨ (97 ≤ c.toNat ∧ c.toNat ≤ 122) := by
  unfold isAsciiAlpha
  simp only [Bool.or_eq_true, Bool.and_eq_true, decide_eq_true_eq]

/-- Lowercasing preserves scheme characters. -/
theorem schemeChar_pyLowerChar (c : Char) (h : schemeChar c = true) :
    schemeChar (pyLowerChar c) = true := by
  rw [schemeChar_iff] at h ⊢
  rw [pyLowerChar_toNat]
  by_cases hc : 65 ≤ c.toNat ∧ c.toNat ≤ 90
  · rw [if_pos hc]
    omega
  · rw [if_neg hc]
    exact h

/-- Lowercasing preserves ASCII letters. -/
theorem isAsciiAlpha_pyLowerChar (c : Char) (h : isAsciiAlpha c = true) :
    isAsciiAlpha (pyLowerChar c) = true := by
  rw [isAsciiAlpha_iff] at h ⊢
  rw [pyLowerChar_toNat]
  by_cases hc : 65 ≤ c.toNat ∧ c.toNat ≤ 90
  · rw [if_pos hc]
    omega
  · rw [if_neg hc]
    omega

/-- A scheme character is not a colon, slash, hash or question mark. -/
theorem schemeChar_ne (c : Char) (h : schemeChar c = true) :
    (c == ':') = false ∧ (c == '/') = false ∧ (c == '?') = false ∧
    (c == '#') = false := by
  rw [schemeChar_iff] at h
  refine ⟨?_, ?_, ?_, ?_⟩ <;>
  · rw [Bool.eq_false_iff]
    intro hc
    rw [char_beq_iff_toNat] at hc
    simp only [colon_toNat, slash_toNat, query_toNat, hash_toNat] at hc
    omega

/-- Inversion of `splitScheme`: either no scheme was split off and the
URL is returned whole, or the URL decomposes at its first colon into a
valid scheme and the rest. -/
theorem splitScheme_inv (url s r : List Char) (h : splitScheme url = (s, r)) :
    (s = [] ∧ r = url) ∨
    (∃ b bs, s = (b :: bs).map pyLowerChar ∧ url = (b :: bs) ++ ':' :: r ∧
      isAsciiAlpha b = true ∧ ((b :: bs).all schemeChar) = true) := by
  unfold splitScheme at h
  rcases hsp : splitOnce ':' url with ⟨a, o⟩
  rw [hsp] at h
  cases o with
  | none =>
    simp only [] at h
    rw [Prod.mk.injEq] at h
    exact Or.inl ⟨h.1.symm, h.2.symm⟩
  | some after =>
    cases a with
    | nil =>
      simp only [] at h
      rw [Prod.mk.injEq] at h
      exact Or.inl ⟨h.1.symm, h.2.symm⟩
    | cons b bs =>
      simp only [] at h
      by_cases hcond : (isAsciiAlpha b && ((b :: bs).all schemeChar)) = true
      · rw [if_pos hcond] at h
        rw [Prod.mk.injEq] at h
        obtain ⟨h1, h2⟩ := h
        obtain ⟨hurl, _⟩ := splitOnce_some_inv ':' url (b :: bs) after hsp
        rw [Bool.and_eq_true] at hcond
        refine Or.inr ⟨b, bs, h1.symm, ?_, hcond.1, hcond.2⟩
        rw [hurl, h2]
      · rw [if_neg hcond] at h
        rw [Prod.mk.injEq] at h
        exact Or.inl ⟨h.1.symm, h.2.symm⟩

/-- Rebuilding `splitScheme` from a valid, already-lowercased scheme. -/
theorem splitScheme_rejoin (b : Char) (bs r : List Char)
    (halpha : isAsciiAlpha b = true)
    (hall : ((b :: bs).all schemeChar) = true)
    (hlow : (b :: bs).map pyLowerChar = b :: bs) :
    splitScheme ((b :: bs) ++ ':' :: r) = (b :: bs, r) := by
  unfold splitScheme
  rw [splitOnce_append ':' (b :: bs) r (fun x hx =>
    (schemeChar_ne x (List.all_eq_true.mp hall x hx)).1)]
  simp only []
  rw [if_pos (by rw [halpha, hall]; rfl)]
  rw [hlow]

/-- A URL whose first character is not an ASCII letter never yields a
scheme. -/
theorem splitScheme_head_not_alpha (url : List Char)
    (h : url = [] ∨ ∃ c t, url = c :: t ∧ isAsciiAlpha c = false) :
    splitScheme url = ([], url) := by
  unfold splitScheme
  rcases hsp : splitOnce ':' url with ⟨a, o⟩
  cases o with
  | none =>
    cases a with
    | nil => rfl
    | cons b bs => rfl
  | some after =>
    cases a with
    | nil => rfl
    | cons b bs =>
      obtain ⟨hurl, _⟩ := splitOnce_some_inv ':' url (b :: bs) after hsp
      rcases h with h0 | ⟨c, t, hct, hc⟩
      · rw [h0] at hurl
        simp at hurl
      · have hbc : b = c := by
          rw [hct] at hurl
          rw [List.cons_append] at hurl
          injection hurl with h1 _
          exact h1.symm
        simp only []
        rw [if_neg (by rw [hbc, hc]; simp)]

/-- Cutting two decompositions at the same (first) separator. -/
theorem appendSep_unique (sep : Char) (a p x y : List Char)
    (ha : ∀ z ∈ a, (z == sep) = false) (hp : ∀ z ∈ p, (z == sep) = false)
    (h : a ++ sep :: x = p ++ sep :: y) : a = p ∧ x = y := by
  have h1 : splitOnce sep (a ++ sep :: x) = (a, some x) :=
    splitOnce_append sep a x ha
  have h2 : splitOnce sep (p ++ sep :: y) = (p, some y) :=
    splitOnce_append sep p y hp
  rw [h] at h1
  rw [h1] at h2
  rw [Prod.mk.injEq, Option.some.injEq] at h2
  exact ⟨h2.1, h2.2⟩

/-- Scheme extraction also fails on every prefix of a URL on which it
fails. -/
theorem splitScheme_prefix_of_no_scheme (u pre w : List Char)
    (hu : splitScheme u = ([], u)) (hw : pre ++ w = u) :
    splitScheme pre = ([], pre) := by
  rcases hsp : splitScheme pre with ⟨s, r⟩
  rcases splitScheme_inv pre s r hsp with ⟨h1, h2⟩ | ⟨b, bs, hs, hpre, hal, hall⟩
  · rw [h1, h2]
  · exfalso
    have hcolonfree : ∀ z ∈ b :: bs, (z == ':') = false := fun z hz =>
      (schemeChar_ne z (List.all_eq_true.mp hall z hz)).1
    have hu2 : u = (b :: bs) ++ ':' :: (r ++ w) := by
      rw [← hw, hpre]
      simp
    have : splitScheme u = ((b :: bs).map pyLowerChar, r ++ w) := by
      unfold splitScheme
      rw [hu2, splitOnce_append ':' (b :: bs) (r ++ w) hcolonfree]
      simp only []
      rw [if_pos (by rw [hal, hall]; rfl)]
    rw [hu] at this
    rw [Prod.mk.injEq] at this
    simp at this

/-- Membership through the Boolean `contains`. -/
theorem contains_iff_mem (l : List Char) (a : Char) :
    l.contains a = true ↔ a ∈ l := by
  simp [List.contains]

/-- The last path segment (the whole path when it has no slash)
contains no semicolon.  This is the shape every path produced by
`_splitparams` has, and the condition under which re-splitting is the
identity. -/
def noSemiTail (p : List Char) : Prop :=
  match splitOnce '/' p.reverse with
  | (rt, some _) => ∀ x ∈ rt, (x == ';') = false
  | (_, none) => ∀ x ∈ p, (x == ';') = false

/-- A semicolon-free path trivially satisfies `noSemiTail`. -/
theorem noSemiTail_of_semifree (p : List Char)
    (h : ∀ x ∈ p, (x == ';') = false) : noSemiTail p := by
  unfold noSemiTail
  rcases hsp : splitOnce '/' p.reverse with ⟨rt, o⟩
  cases o with
  | none => exact h
  | some rp =>
    obtain ⟨hrev, _⟩ := splitOnce_some_inv '/' p.reverse rt rp hsp
    intro x hx
    have : x ∈ p.reverse := by rw [hrev]; exact List.mem_append_left _ hx
    exact h x (List.mem_reverse.mp this)

/-- `noSemiTail` survives prepending a slash. -/
theorem noSemiTail_cons_slash (p : List Char) (h : noSemiTail p) :
    noSemiTail ('/' :: p) := by
  unfold noSemiTail at h ⊢
  rw [show ('/' :: p).reverse = p.reverse ++ ['/'] by simp]
  rcases hsp : splitOnce '/' p.reverse with ⟨rt, o⟩
  rw [hsp] at h
  cases o with
  | some rp =>
    obtain ⟨hrev, hfree⟩ := splitOnce_some_inv '/' p.reverse rt rp hsp
    rw [hrev, List.append_assoc, List.cons_append]
    rw [splitOnce_append '/' rt (rp ++ ['/']) hfree]
    exact h
  | none =>
    obtain ⟨hrt, hfree⟩ := splitOnce_none_inv '/' p.reverse rt hsp
    rw [show p.reverse ++ ['/'] = p.reverse ++ '/' :: [] from rfl]
    rw [splitOnce_append '/' p.reverse [] hfree]
    intro x hx
    exact h x (List.mem_reverse.mp hx)

/-- Re-splitting a rejoined path-plus-params cuts at the same place. -/
theorem splitParams_rejoin (path params : List Char)
    (hns : noSemiTail path) (hpf : ∀ x ∈ params, (x == '/') = false) :
    splitParamsChars (path ++ ';' :: params) = (path, params) := by
  unfold splitParamsChars
  rw [if_pos ((contains_iff_mem _ ';').mpr
    (List.mem_append_right path (List.mem_cons_self ';' params)))]
  have hrev : (path ++ ';' :: params).reverse =
      params.reverse ++ ';' :: path.reverse := by
    simp
  unfold noSemiTail at hns
  rcases hsp : splitOnce '/' path.reverse with ⟨rt, o⟩
  rw [hsp] at hns
  cases o with
  | some rp =>
    obtain ⟨hpr, hrtfree⟩ := splitOnce_some_inv '/' path.reverse rt rp hsp
    have hallfree : ∀ x ∈ params.reverse ++ ';' :: rt, (x == '/') = false := by
      intro x hx
      rcases List.mem_append.mp hx with hx1 | hx2
      · exact hpf x (List.mem_reverse.mp hx1)
      · rcases List.mem_cons.mp hx2 with hx3 | hx4
        · rw [hx3]; decide
        · exact hrtfree x hx4
    have hfst : splitOnce '/' (path ++ ';' :: params).reverse =
        (params.reverse ++ ';' :: rt, some rp) := by
      rw [hrev, hpr]
      rw [show params.reverse ++ ';' :: (rt ++ '/' :: rp) =
        (params.reverse ++ ';' :: rt) ++ '/' :: rp by simp]
      exact splitOnce_append '/' _ rp hallfree
    rw [hfst]
    dsimp only []
    have hsnd : splitOnce ';' (params.reverse ++ ';' :: rt).reverse =
        (rt.reverse, some params) := by
      rw [show (params.reverse ++ ';' :: rt).reverse =
        rt.reverse ++ ';' :: params by simp]
      exact splitOnce_append ';' rt.reverse params
        (fun x hx => hns x (List.mem_reverse.mp hx))
    rw [hsnd]
    dsimp only []
    rw [Prod.mk.injEq]
    refine ⟨?_, rfl⟩
    have hpath : path = (rt ++ '/' :: rp).reverse := by
      rw [← hpr, List.reverse_reverse]
    rw [hpath]
    simp
  | none =>
    obtain ⟨hrt, hfree⟩ := splitOnce_none_inv '/' path.reverse rt hsp
    have hallfree : ∀ x ∈ (path ++ ';' :: params).reverse,
        (x == '/') = false := by
      intro x hx
      rw [hrev] at hx
      rcases List.mem_append.mp hx with hx1 | hx2
      · exact hpf x (List.mem_reverse.mp hx1)
      · rcases List.mem_cons.mp hx2 with hx3 | hx4
        · rw [hx3]; decide
        · exact hfree x hx4
    rw [splitOnce_of_not_mem '/' _ hallfree]
    dsimp only []
    rw [splitOnce_append ';' path params (fun x hx => hns x hx)]

/-- Re-splitting a path with no parameters is the identity. -/
theorem splitParams_fix (path : List Char) (hns : noSemiTail path) :
    splitParamsChars path = (path, []) := by
  unfold splitParamsChars
  by_cases hc : path.contains ';' = true
  · rw [if_pos hc]
    unfold noSemiTail at hns
    rcases hsp : splitOnce '/' path.reverse with ⟨rt, o⟩
    rw [hsp] at hns
    cases o with
    | some rp =>
      dsimp only [] at hns ⊢
      rw [splitOnce_of_not_mem ';' rt.reverse
        (fun x hx => hns x (List.mem_reverse.mp hx))]
    | none =>
      exfalso
      have hmem : (';' : Char) ∈ path := (contains_iff_mem path ';').mp hc
      have := hns ';' hmem
      simp at this
  · rw [if_neg hc]

/-- The path rejoined with its parameters, as `urlunparse` rebuilds it. -/
def pathWith (path params : List Char) : List Char :=
  if params.isEmpty then path else path ++ ';' :: params

/-- Inversion of `_splitparams`: memberships, the last-segment shape of
the returned path, slash-freeness of the parameters, the exact rejoin
when parameters exist, and prefix-ness of the rejoined path. -/
theorem splitParams_inv (p0 path params : List Char)
    (h : splitParamsChars p0 = (path, params)) :
    (∀ x ∈ path, x ∈ p0) ∧
    (∀ x ∈ params, x ∈ p0 ∧ (x == '/') = false) ∧
    noSemiTail path ∧
    (params ≠ [] → path ++ ';' :: params = p0) ∧
    (∃ w, pathWith path params ++ w = p0) := by
  unfold splitParamsChars at h
  by_cases hc : p0.contains ';' = true
  · rw [if_pos hc] at h
    rcases hsp : splitOnce '/' p0.reverse with ⟨rt, o⟩
    rw [hsp] at h
    cases o with
    | none =>
      obtain ⟨hrt, hfree⟩ := splitOnce_none_inv '/' p0.reverse rt hsp
      dsimp only [] at h
      rcases hsc : splitOnce ';' p0 with ⟨a, o2⟩
      rw [hsc] at h
      cases o2 with
      | none =>
        exfalso
        obtain ⟨_, hfree2⟩ := splitOnce_none_inv ';' p0 a hsc
        have hmem : (';' : Char) ∈ p0 := (contains_iff_mem p0 ';').mp hc
        have := hfree2 ';' hmem
        simp at this
      | some b =>
        dsimp only [] at h
        rw [Prod.mk.injEq] at h
        obtain ⟨h1, h2⟩ := h
        subst h1; subst h2
        obtain ⟨hp0, hafree⟩ := splitOnce_some_inv ';' p0 a b hsc
        have hp0free : ∀ x ∈ p0, (x == '/') = false := by
          intro x hx
          exact hfree x (List.mem_reverse.mpr hx)
        refine ⟨?_, ?_, ?_, ?_, ?_⟩
        · intro x hx
          rw [hp0]; exact List.mem_append_left _ hx
        · intro x hx
          have hxp0 : x ∈ p0 := by
            rw [hp0]
            exact List.mem_append_right _ (List.mem_cons_of_mem ';' hx)
          exact ⟨hxp0, hp0free x hxp0⟩
        · exact noSemiTail_of_semifree a hafree
        · intro _
          exact hp0.symm
        · by_cases he : b.isEmpty
          · refine ⟨[';'], ?_⟩
            unfold pathWith
            rw [if_pos he, hp0, List.isEmpty_iff.mp he]
          · refine ⟨[], ?_⟩
            unfold pathWith
            rw [if_neg (by simp [he]), List.append_nil, hp0]
    | some rp =>
      obtain ⟨hpr, hrtfree⟩ := splitOnce_some_inv '/' p0.reverse rt rp hsp
      have hp0eq : p0 = rp.reverse ++ '/' :: rt.reverse := by
        have h0 : p0 = p0.reverse.reverse := by rw [List.reverse_reverse]
        rw [h0, hpr]
        simp
      dsimp only [] at h
      rcases hsc : splitOnce ';' rt.reverse with ⟨a2, o2⟩
      rw [hsc] at h
      cases o2 with
      | none =>
        dsimp only [] at h
        rw [Prod.mk.injEq] at h
        obtain ⟨h1, h2⟩ := h
        subst h1; subst h2
        obtain ⟨_, hfree2⟩ := splitOnce_none_inv ';' rt.reverse a2 hsc
        refine ⟨fun x hx => hx, fun x hx => absurd hx (by simp), ?_, ?_, ?_⟩
        · unfold noSemiTail
          rw [hsp]
          intro x hx
          exact hfree2 x (List.mem_reverse.mpr hx)
        · intro hne
          exact absurd rfl hne
        · exact ⟨[], by simp [pathWith]⟩
      | some b2 =>
        dsimp only [] at h
        rw [Prod.mk.injEq] at h
        obtain ⟨h1, h2⟩ := h
        subst h1; subst h2
        obtain ⟨hrtrev, ha2free⟩ := splitOnce_some_inv ';' rt.reverse a2 b2 hsc
        have hrtmem : ∀ x ∈ rt.reverse, x ∈ p0 := by
          intro x hx
          rw [hp0eq]
          exact List.mem_append_right _ (List.mem_cons_of_mem '/' hx)
        have hrejoin : (rp.reverse ++ '/' :: a2) ++ ';' :: b2 = p0 := by
          rw [hp0eq, hrtrev]
          simp
        refine ⟨?_, ?_, ?_, fun _ => hrejoin, ?_⟩
        · intro x hx
          rcases List.mem_append.mp hx with hx1 | hx2
          · rw [hp0eq]
            exact List.mem_append_left _ hx1
          · rcases List.mem_cons.mp hx2 with hx3 | hx4
            · rw [hp0eq, hx3]
              exact List.mem_append_right _ (List.mem_cons_self '/' _)
            · exact hrtmem x (by rw [hrtrev]; exact List.mem_append_left _ hx4)
        · intro x hx
          have hxrt : x ∈ rt.reverse := by
            rw [hrtrev]
            exact List.mem_append_right _ (List.mem_cons_of_mem ';' hx)
          refine ⟨hrtmem x hxrt, ?_⟩
          exact hrtfree x (List.mem_reverse.mp hxrt)
        · unfold noSemiTail
          have ha2slashfree : ∀ x ∈ a2.reverse, (x == '/') = false := by
            intro x hx
            have hxr : x ∈ rt.reverse := by
              rw [hrtrev]
              exact List.mem_append_left _ (List.mem_reverse.mp hx)
            exact hrtfree x (List.mem_reverse.mp hxr)
          rw [show (rp.reverse ++ '/' :: a2).reverse = a2.reverse ++ '/' :: rp
            by simp]
          rw [splitOnce_append '/' a2.reverse rp ha2slashfree]
          intro x hx
          exact ha2free x (List.mem_reverse.mp hx)
        · by_cases hb2 : b2.isEmpty
          · refine ⟨[';'], ?_⟩
            unfold pathWith
            rw [if_pos hb2]
            rw [List.isEmpty_iff.mp hb2] at hrejoin
            simpa using hrejoin
          · refine ⟨[], ?_⟩
            unfold pathWith
            rw [if_neg (by simp [hb2]), List.append_nil]
            exact hrejoin
  · rw [if_neg hc] at h
    rw [Prod.mk.injEq] at h
    obtain ⟨h1, h2⟩ := h
    subst h1; subst h2
    have hfree : ∀ x ∈ p0, (x == ';') = false := by
      intro x hx
      rw [Bool.eq_false_iff]
      intro hbeq
      have hxe : x = ';' := by simpa using hbeq
      have hmem : (';' : Char) ∈ p0 := by
        rw [← hxe]
        exact hx
      exact hc ((contains_iff_mem p0 ';').mpr hmem)
    refine ⟨fun x hx => hx, fun x hx => absurd hx (by simp), ?_, ?_, ?_⟩
    · exact noSemiTail_of_semifree p0 hfree
    · intro hne
      exact absurd rfl hne
    · exact ⟨[], by simp [pathWith]⟩

/-- The removed unsafe bytes are all C0 controls. -/
theorem unsafe_c0 (c : Char) (h : unsafeUrlChar c = true) : c0Space c = true := by
  unfold unsafeUrlChar at h
  unfold c0Space
  rcases Bool.or_eq_true_iff.mp h with h1 | h2
  · rcases Bool.or_eq_true_iff.mp h1 with h3 | h4
    · rw [char_beq_iff_toNat.mp h3]; decide
    · rw [char_beq_iff_toNat.mp h4]; decide
  · rw [char_beq_iff_toNat.mp h2]; decide

/-- Scheme characters are never removed as unsafe bytes. -/
theorem schemeChar_not_unsafe (c : Char) (h : schemeChar c = true) :
    unsafeUrlChar c = false := by
  have h2 := (schemeChar_iff c).mp h
  have h3 : 43 ≤ c.toNat := by
    rcases h2 with ⟨a, b⟩ | ⟨a, b⟩ | ⟨a, b⟩ | a | a | a <;> omega
  unfold unsafeUrlChar
  simp only [Bool.or_eq_false_iff]
  refine ⟨⟨?_, ?_⟩, ?_⟩ <;>
    (rw [Bool.eq_false_iff]; intro hb;
     have hv := char_beq_iff_toNat.mp hb; rw [hv] at h3;
     exact absurd h3 (by decide))

/-- `pathWith` on empty parameters. -/
theorem pathWith_nil (path : List Char) : pathWith path [] = path := by
  simp [pathWith]

/-- `pathWith` on non-empty parameters. -/
theorem pathWith_ne_nil (path params : List Char) (h : params ≠ []) :
    pathWith path params = path ++ ';' :: params := by
  unfold pathWith
  rw [if_neg (by simp [h])]

/-- `pathWith` commutes with prepending a slash to the path. -/
theorem pathWith_slash (path params : List Char) :
    pathWith ('/' :: path) params = '/' :: pathWith path params := by
  unfold pathWith
  by_cases h : params.isEmpty
  · rw [if_pos h, if_pos h]
  · rw [if_neg h, if_neg h]
    rfl

/-- Members of the rejoined path. -/
theorem pathWith_mem (path params : List Char) (x : Char)
    (h : x ∈ pathWith path params) : x ∈ path ∨ x = ';' ∨ x ∈ params := by
  unfold pathWith at h
  by_cases he : params.isEmpty
  · rw [if_pos he] at h
    exact Or.inl h
  · rw [if_neg he] at h
    rcases List.mem_append.mp h with h1 | h2
    · exact Or.inl h1
    · rcases List.mem_cons.mp h2 with h3 | h4
      · exact Or.inr (Or.inl h3)
      · exact Or.inr (Or.inr h4)

/-- A double-slash prefix survives appending. -/
theorem take2_append (a w : List Char) (h : a.take 2 = ['/', '/']) :
    (a ++ w).take 2 = ['/', '/'] := by
  cases a with
  | nil => simp at h
  | cons x t =>
    cases t with
    | nil => simp at h
    | cons y t2 =>
      simp only [List.take] at h ⊢
      injection h with h1 h2
      injection h2 with h3 _
      rw [h1, h3]

/-- A double-slash prefix of the rejoined path is one of the path. -/
theorem pathWith_take2 (path params : List Char)
    (h : (pathWith path params).take 2 = ['/', '/']) :
    path.take 2 = ['/', '/'] := by
  unfold pathWith at h
  by_cases he : params.isEmpty
  · rw [if_pos he] at h
    exact h
  · rw [if_neg he] at h
    cases path with
    | nil => simp at h
    | cons x t =>
      cases t with
      | nil => simp at h
      | cons y t2 =>
        simpa using h

/-- The head of an append is the head of its non-empty first part. -/
theorem head_append_left (a w : List Char) (h : a ≠ []) :
    (a ++ w).head? = a.head? := by
  cases a with
  | nil => exact absurd rfl h
  | cons x t => rfl

/-- A list whose head is not in the stripped class is left whole by
`dropWhile`. -/
theorem dropWhile_eq_self_of_head (l : List Char)
    (h : ∀ c, l.head? = some c → c0Space c = false) :
    l.dropWhile c0Space = l := by
  cases l with
  | nil => rfl
  | cons x t =>
    rw [List.dropWhile_cons, if_neg (by simp [h x rfl])]

/-- A list with no unsafe bytes is left whole by the removal loop. -/
theorem stripUnsafe_eq_self (l : List Char)
    (h : ∀ x ∈ l, unsafeUrlChar x = false) : stripUnsafe l = l := by
  unfold stripUnsafe
  rw [List.filter_eq_self]
  intro a ha
  simp [h a ha]

/-- Members of the cleaned list. -/
theorem mem_stripUnsafe (l : List Char) (x : Char) (h : x ∈ stripUnsafe l) :
    unsafeUrlChar x = false ∧ x ∈ l := by
  unfold stripUnsafe at h
  have h2 := List.mem_filter.mp h
  exact ⟨by simpa using h2.2, h2.1⟩

/-- The head of the left-stripped, cleaned URL is outside the stripped
class. -/
theorem lstrip_head (u : List Char) (c : Char)
    (h : (stripUnsafe (u.dropWhile c0Space)).head? = some c) :
    c0Space c = false := by
  induction u with
  | nil => simp [stripUnsafe] at h
  | cons a t ih =>
    rw [List.dropWhile_cons] at h
    by_cases ha : c0Space a = true
    · rw [if_pos (by simp [ha])] at h
      exact ih h
    · rw [if_neg (by simp [Bool.eq_false_iff.mpr ha])] at h
      have hau : unsafeUrlChar a = false := by
        rw [Bool.eq_false_iff]
        intro hu
        exact ha (unsafe_c0 a hu)
      unfold stripUnsafe at h
      rw [List.filter_cons, if_pos (by simp [hau])] at h
      rw [List.head?_cons, Option.some.injEq] at h
      rw [← h]
      exact Bool.eq_false_iff.mpr ha

/-- Re-splitting the rejoined path under the `urlparse` parameter guard
recovers the original path and parameters. -/
theorem reSplitParams (scheme path params : List Char)
    (h7 : noSemiTail path ∨ schemeUsesParams scheme = false)
    (h8 : params ≠ [] → schemeUsesParams scheme = true ∧ noSemiTail path)
    (hpf : ∀ x ∈ params, (x == '/') = false) :
    (if schemeUsesParams scheme && (pathWith path params).contains ';' then
       splitParamsChars (pathWith path params)
     else (pathWith path params, [])) = (path, params) := by
  by_cases hp : params = []
  · subst hp
    rw [pathWith_nil]
    by_cases hg : (schemeUsesParams scheme && path.contains ';') = true
    · rw [if_pos hg]
      rw [Bool.and_eq_true] at hg
      obtain ⟨hu, _⟩ := hg
      rcases h7 with hns | hnu
      · exact splitParams_fix path hns
      · rw [hu] at hnu
        exact absurd hnu (by simp)
    · rw [if_neg hg]
  · obtain ⟨hu, hns⟩ := h8 hp
    rw [pathWith_ne_nil path params hp]
    rw [if_pos (by
      rw [hu]
      simp only [Bool.true_and]
      exact (contains_iff_mem _ ';').mpr
        (List.mem_append_right path (List.mem_cons_self ';' params)))]
    exact splitParams_rejoin path params hns hpf

/-- ASCII lowercasing a list twice equals lowercasing once. -/
theorem map_pyLower_idem (l : List Char) :
    (l.map pyLowerChar).map pyLowerChar = l.map pyLowerChar := by
  induction l with
  | nil => rfl
  | cons a t ih => simp [pyLowerChar_idem, ih]

/-- Inversion of a successful `urlsplit`: shape of the scheme, netloc
and path, and the information needed to re-split the rebuilt URL. -/
theorem urlsplit_some_inv (u : List Char) (s : SplitResult)
    (h : urlsplitChars u = some s) :
    s.scheme.map pyLowerChar = s.scheme ∧
    (s.scheme = [] ∨ ∃ b bs, s.scheme = b :: bs ∧ isAsciiAlpha b = true ∧
      ((b :: bs).all schemeChar) = true) ∧
    (∀ x ∈ s.netloc, netlocStop x = false ∧ unsafeUrlChar x = false) ∧
    bracketMismatch s.netloc = false ∧
    (∀ x ∈ s.path, (x == '#') = false ∧ (x == '?') = false ∧
      unsafeUrlChar x = false) ∧
    ((s.path = [] ∨ s.path.head? = some '/') ∨
     (s.netloc = [] ∧ ¬(s.path.take 2 = ['/', '/']) ∧
      (s.scheme = [] → splitScheme s.path = ([], s.path) ∧
        (∀ c, s.path.head? = some c → c0Space c = false)))) := by
  unfold urlsplitChars at h
  dsimp only [] at h
  rcases hss : splitScheme (stripUnsafe (u.dropWhile c0Space)) with ⟨sch, rest⟩
  rw [hss] at h
  dsimp only [] at h
  have hu1unsafe : ∀ x ∈ stripUnsafe (u.dropWhile c0Space),
      unsafeUrlChar x = false :=
    fun x hx => (mem_stripUnsafe _ x hx).1
  have hu1head : ∀ c, (stripUnsafe (u.dropWhile c0Space)).head? = some c →
      c0Space c = false :=
    fun c hc => lstrip_head u c hc
  have hinv := splitScheme_inv _ sch rest hss
  have hlow : sch.map pyLowerChar = sch := by
    rcases hinv with ⟨h1, _⟩ | ⟨b, bs, h1, _, _, _⟩
    · rw [h1]; rfl
    · rw [h1]; exact map_pyLower_idem (b :: bs)
  have hshape : sch = [] ∨ ∃ b bs, sch = b :: bs ∧ isAsciiAlpha b = true ∧
      ((b :: bs).all schemeChar) = true := by
    rcases hinv with ⟨h1, _⟩ | ⟨b, bs, h1, _, halpha, hall⟩
    · exact Or.inl h1
    · refine Or.inr ⟨pyLowerChar b, bs.map pyLowerChar, by rw [h1]; rfl,
        isAsciiAlpha_pyLowerChar b halpha, ?_⟩
      rw [List.all_eq_true]
      intro x hx
      have hx2 : x ∈ (b :: bs).map pyLowerChar := hx
      obtain ⟨y, hy, hyx⟩ := List.mem_map.mp hx2
      rw [← hyx]
      exact schemeChar_pyLowerChar y (List.all_eq_true.mp hall y hy)
  have hrest_unsafe : ∀ x ∈ rest, unsafeUrlChar x = false := by
    rcases hinv with ⟨_, h2⟩ | ⟨b, bs, _, h2, _, _⟩
    · intro x hx
      rw [h2] at hx
      exact hu1unsafe x hx
    · intro x hx
      exact hu1unsafe x (by
        rw [h2]
        exact List.mem_append_right _ (List.mem_cons_of_mem _ hx))
  have hrestu1 : sch = [] → rest = stripUnsafe (u.dropWhile c0Space) := by
    intro h0
    rcases hinv with ⟨_, h2⟩ | ⟨b, bs, h1, _, _, _⟩
    · exact h2
    · rw [h0] at h1
      exact absurd h1.symm (by simp)
  have hnoscheme : sch = [] →
      splitScheme (stripUnsafe (u.dropWhile c0Space)) =
        ([], stripUnsafe (u.dropWhile c0Space)) := by
    intro h0
    rw [hss, h0, hrestu1 h0]
  by_cases htake : rest.take 2 = ['/', '/']
  · rw [if_pos htake] at h
    rcases hnl : splitNetlocChars (rest.drop 2) with ⟨nl, r2⟩
    rw [hnl] at h
    dsimp only [] at h
    by_cases hbm : bracketMismatch nl = true
    · rw [if_pos hbm] at h
      exact absurd h (by simp)
    · rw [if_neg hbm] at h
      rcases hfr : splitOnce '#' r2 with ⟨f1, f2⟩
      rw [hfr] at h
      dsimp only [] at h
      rcases hqr : splitOnce '?' f1 with ⟨q1, q2⟩
      rw [hqr] at h
      dsimp only [] at h
      have hs := Option.some.inj h
      subst hs
      dsimp only []
      obtain ⟨hd2, hnlfree, hr2shape⟩ := splitNetloc_inv _ nl r2 hnl
      have hf1 : ∀ x ∈ f1, x ∈ r2 ∧ (x == '#') = false := by
        cases f2 with
        | none =>
          obtain ⟨he, hfree⟩ := splitOnce_none_inv '#' r2 f1 hfr
          intro x hx
          rw [he] at hx
          exact ⟨hx, hfree x hx⟩
        | some b =>
          obtain ⟨he, hfree⟩ := splitOnce_some_inv '#' r2 f1 b hfr
          intro x hx
          exact ⟨by rw [he]; exact List.mem_append_left _ hx, hfree x hx⟩
      have hq1 : ∀ x ∈ q1, x ∈ f1 ∧ (x == '?') = false := by
        cases q2 with
        | none =>
          obtain ⟨he, hfree⟩ := splitOnce_none_inv '?' f1 q1 hqr
          intro x hx
          rw [he] at hx
          exact ⟨hx, hfree x hx⟩
        | some b =>
          obtain ⟨he, hfree⟩ := splitOnce_some_inv '?' f1 q1 b hqr
          intro x hx
          exact ⟨by rw [he]; exact List.mem_append_left _ hx, hfree x hx⟩
      have hr2rest : ∀ x ∈ r2, x ∈ rest := by
        intro x hx
        have hx2 : x ∈ rest.drop 2 := by
          rw [hd2]
          exact List.mem_append_right _ hx
        exact List.drop_subset 2 rest hx2
      have hnlrest : ∀ x ∈ nl, x ∈ rest := by
        intro x hx
        have hx2 : x ∈ rest.drop 2 := by
          rw [hd2]
          exact List.mem_append_left _ hx
        exact List.drop_subset 2 rest hx2
      refine ⟨hlow, hshape, ?_, Bool.eq_false_iff.mpr hbm, ?_, ?_⟩
      · intro x hx
        exact ⟨hnlfree x hx, hrest_unsafe x (hnlrest x hx)⟩
      · intro x hx
        obtain ⟨hxf1, hxq⟩ := hq1 x hx
        obtain ⟨hxr2, hxh⟩ := hf1 x hxf1
        exact ⟨hxh, hxq, hrest_unsafe x (hr2rest x hxr2)⟩
      · left
        by_cases hq1nil : q1 = []
        · exact Or.inl hq1nil
        · right
          have hf1nil : f1 ≠ [] := by
            intro h0
            rw [h0] at hqr
            rw [show splitOnce '?' ([] : List Char) = ([], none) from rfl]
              at hqr
            rw [Prod.mk.injEq] at hqr
            exact hq1nil hqr.1.symm
          have hq1head : q1.head? = f1.head? :=
            splitOnce_head '?' f1 q1 (by rw [hqr]) hq1nil
          have hf1head : f1.head? = r2.head? :=
            splitOnce_head '#' r2 f1 (by rw [hfr]) hf1nil
          rcases hr2shape with hr2nil | ⟨y, t, hyt, hy⟩
          · exfalso
            rw [hr2nil] at hfr
            rw [show splitOnce '#' ([] : List Char) = ([], none) from rfl]
              at hfr
            rw [Prod.mk.injEq] at hfr
            exact hf1nil hfr.1.symm
          · have hqy : q1.head? = some y := by
              rw [hq1head, hf1head, hyt]
              rfl
            have hymem : y ∈ q1 := by
              cases q1 with
              | nil => exact absurd rfl hq1nil
              | cons a t2 =>
                rw [List.head?_cons, Option.some.injEq] at hqy
                rw [← hqy]
                exact List.mem_cons_self a t2
            obtain ⟨hyf1, hyq⟩ := hq1 y hymem
            obtain ⟨hyr2, hyh⟩ := hf1 y hyf1
            have hyslash : y = '/' := by
              unfold netlocStop at hy
              rcases Bool.or_eq_true_iff.mp hy with h3 | h4
              · rcases Bool.or_eq_true_iff.mp h3 with h5 | h6
                · exact char_eq_of_toNat_eq (char_beq_iff_toNat.mp h5)
                · rw [hyq] at h6
                  exact absurd h6 (by simp)
              · rw [hyh] at h4
                exact absurd h4 (by simp)
            rw [hqy, hyslash]
  · rw [if_neg htake] at h
    rcases hfr : splitOnce '#' rest with ⟨f1, f2⟩
    rw [hfr] at h
    dsimp only [] at h
    rcases hqr : splitOnce '?' f1 with ⟨q1, q2⟩
    rw [hqr] at h
    dsimp only [] at h
    have hs := Option.some.inj h
    subst hs
    dsimp only []
    have hf1 : ∀ x ∈ f1, x ∈ rest ∧ (x == '#') = false := by
      cases f2 with
      | none =>
        obtain ⟨he, hfree⟩ := splitOnce_none_inv '#' rest f1 hfr
        intro x hx
        rw [he] at hx
        exact ⟨hx, hfree x hx⟩
      | some b =>
        obtain ⟨he, hfree⟩ := splitOnce_some_inv '#' rest f1 b hfr
        intro x hx
        exact ⟨by rw [he]; exact List.mem_append_left _ hx, hfree x hx⟩
    have hq1 : ∀ x ∈ q1, x ∈ f1 ∧ (x == '?') = false := by
      cases q2 with
      | none =>
        obtain ⟨he, hfree⟩ := splitOnce_none_inv '?' f1 q1 hqr
        intro x hx
        rw [he] at hx
        exact ⟨hx, hfree x hx⟩
      | some b =>
        obtain ⟨he, hfree⟩ := splitOnce_some_inv '?' f1 q1 b hqr
        intro x hx
        exact ⟨by rw [he]; exact List.mem_append_left _ hx, hfree x hx⟩
    have hf1pre : ∃ w, f1 ++ w = rest := by
      cases f2 with
      | none =>
        obtain ⟨he, _⟩ := splitOnce_none_inv '#' rest f1 hfr
        exact ⟨[], by rw [List.append_nil, he]⟩
      | some b =>
        obtain ⟨he, _⟩ := splitOnce_some_inv '#' rest f1 b hfr
        exact ⟨'#' :: b, he.symm⟩
    have hq1pre : ∃ w, q1 ++ w = rest := by
      obtain ⟨w2, hw2⟩ := hf1pre
      cases q2 with
      | none =>
        obtain ⟨he, _⟩ := splitOnce_none_inv '?' f1 q1 hqr
        exact ⟨w2, by rw [he, hw2]⟩
      | some b =>
        obtain ⟨he, _⟩ := splitOnce_some_inv '?' f1 q1 b hqr
        refine ⟨('?' :: b) ++ w2, ?_⟩
        rw [← List.append_assoc, ← he, hw2]
    refine ⟨hlow, hshape, by intro x hx; simp at hx, by decide, ?_, ?_⟩
    · intro x hx
      obtain ⟨hxf1, hxq⟩ := hq1 x hx
      obtain ⟨hxr, hxh⟩ := hf1 x hxf1
      exact ⟨hxh, hxq, hrest_unsafe x hxr⟩
    · right
      obtain ⟨w, hw⟩ := hq1pre
      refine ⟨rfl, ?_, ?_⟩
      · intro hcon
        exact htake (hw ▸ take2_append q1 w hcon)
      · intro h0
        constructor
        · exact splitScheme_prefix_of_no_scheme _ q1 w (hnoscheme h0)
            (by rw [hw, hrestu1 h0])
        · intro c hc
          have hq1nil : q1 ≠ [] := by
            intro h1
            rw [h1] at hc
            exact absurd hc (by simp)
          have hf1nil : f1 ≠ [] := by
            intro h1
            rw [h1] at hqr
            rw [show splitOnce '?' ([] : List Char) = ([], none) from rfl]
              at hqr
            rw [Prod.mk.injEq] at hqr
            exact hq1nil hqr.1.symm
          have hq1head : q1.head? = f1.head? :=
            splitOnce_head '?' f1 q1 (by rw [hqr]) hq1nil
          have hf1head : f1.head? = rest.head? :=
            splitOnce_head '#' rest f1 (by rw [hfr]) hf1nil
          refine hu1head c ?_
          rw [← hrestu1 h0, ← hf1head, ← hq1head]
          exact hc

/-- Inversion of a successful `urlparse`: everything `urlsplit`
guarantees, transferred through the parameter split, plus the parameter
facts needed to re-split the rebuilt URL. -/
theorem urlparse_some_inv (u : List Char) (p : ParseResult)
    (h : urlparseChars u = some p) :
    p.scheme.map pyLowerChar = p.scheme ∧
    (p.scheme = [] ∨ ∃ b bs, p.scheme = b :: bs ∧ isAsciiAlpha b = true ∧
      ((b :: bs).all schemeChar) = true) ∧
    (∀ x ∈ p.netloc, netlocStop x = false ∧ unsafeUrlChar x = false) ∧
    bracketMismatch p.netloc = false ∧
    (∀ x ∈ p.path, (x == '#') = false ∧ (x == '?') = false ∧
      unsafeUrlChar x = false) ∧
    (∀ x ∈ p.params, (x == '/') = false ∧ (x == '#') = false ∧
      (x == '?') = false ∧ unsafeUrlChar x = false) ∧
    (noSemiTail p.path ∨ schemeUsesParams p.scheme = false) ∧
    (p.params ≠ [] → schemeUsesParams p.scheme = true ∧ noSemiTail p.path) ∧
    ((pathWith p.path p.params = [] ∨
       (pathWith p.path p.params).head? = some '/') ∨
     (p.netloc = [] ∧ ¬((pathWith p.path p.params).take 2 = ['/', '/']) ∧
      (p.scheme = [] →
        splitScheme (pathWith p.path p.params) =
          ([], pathWith p.path p.params) ∧
        (∀ c, (pathWith p.path p.params).head? = some c →
          c0Space c = false)))) := by
  unfold urlparseChars at h
  rcases hsp : urlsplitChars u with _ | s
  · rw [hsp] at h
    exact absurd h (by simp)
  · rw [hsp] at h
    rw [Option.map_some'] at h
    obtain ⟨s1, s2, s3, s4, s5, s6⟩ := urlsplit_some_inv u s hsp
    by_cases hg : (schemeUsesParams s.scheme && s.path.contains ';') = true
    · rw [if_pos hg] at h
      rcases hpr : splitParamsChars s.path with ⟨pa, pr2⟩
      rw [hpr] at h
      dsimp only [] at h
      have hinj := Option.some.inj h
      subst hinj
      dsimp only []
      obtain ⟨c1, c2, c3, c4, c5⟩ := splitParams_inv s.path pa pr2 hpr
      have hg2 := hg
      rw [Bool.and_eq_true] at hg2
      refine ⟨s1, s2, s3, s4, ?_, ?_, Or.inl c3, fun _ => ⟨hg2.1, c3⟩, ?_⟩
      · intro x hx
        exact s5 x (c1 x hx)
      · intro x hx
        obtain ⟨hxp, hxs⟩ := c2 x hx
        obtain ⟨hxh, hxq, hxu⟩ := s5 x hxp
        exact ⟨hxs, hxh, hxq, hxu⟩
      · obtain ⟨w, hw⟩ := c5
        rcases s6 with hL | ⟨hnl, htk, hsc⟩
        · left
          by_cases hpw : pathWith pa pr2 = []
          · exact Or.inl hpw
          · right
            rcases hL with hL0 | hLh
            · exfalso
              rw [hL0] at hw
              exact hpw (List.append_eq_nil.mp hw).1
            · rw [← hw] at hLh
              rw [head_append_left _ w hpw] at hLh
              exact hLh
        · right
          refine ⟨hnl, ?_, ?_⟩
          · intro hcon
            exact htk (hw ▸ take2_append _ w hcon)
          · intro h0
            obtain ⟨hfix, hhead⟩ := hsc h0
            constructor
            · exact splitScheme_prefix_of_no_scheme s.path _ w hfix hw
            · intro c hc
              refine hhead c ?_
              have hpw : pathWith pa pr2 ≠ [] := by
                intro h1
                rw [h1] at hc
                exact absurd hc (by simp)
              rw [← hw, head_append_left _ w hpw]
              exact hc
    · rw [if_neg hg] at h
      have hinj := Option.some.inj h
      subst hinj
      dsimp only []
      rw [Bool.and_eq_true] at hg
      have h7 : noSemiTail s.path ∨ schemeUsesParams s.scheme = false := by
        by_cases hu2 : schemeUsesParams s.scheme = true
        · left
          have hc : ¬ s.path.contains ';' = true := fun hcc => hg ⟨hu2, hcc⟩
          refine noSemiTail_of_semifree s.path ?_
          intro x hx
          rw [Bool.eq_false_iff]
          intro hbx
          refine hc ((contains_iff_mem _ ';').mpr ?_)
          rw [show (';' : Char) = x from
            (char_eq_of_toNat_eq (char_beq_iff_toNat.mp hbx)).symm]
          exact hx
        · exact Or.inr (Bool.eq_false_iff.mpr hu2)
      refine ⟨s1, s2, s3, s4, s5, by intro x hx; simp at hx, h7,
        fun hne => absurd rfl hne, ?_⟩
      rw [pathWith_nil]
      exact s6

/-- `urlunsplit` with empty query and fragment, when the `//` marker is
re-added. -/
theorem urlunsplit_cond_true (scheme netloc url : List Char)
    (h : (!netloc.isEmpty || (!scheme.isEmpty && schemeUsesNetloc scheme &&
      !decide (url.take 2 = ['/', '/']))) = true) :
    urlunsplitChars scheme netloc url [] [] =
      (if !scheme.isEmpty then
        scheme ++ ':' :: ('/' :: '/' :: (netloc ++
          (if (!url.isEmpty && !(url.head? == some '/')) = true then '/' :: url
           else url)))
       else '/' :: '/' :: (netloc ++
          (if (!url.isEmpty && !(url.head? == some '/')) = true then '/' :: url
           else url))) := by
  unfold urlunsplitChars
  dsimp only []
  rw [if_pos h]
  simp only [List.isEmpty_nil, Bool.not_true, Bool.false_eq_true, if_false]

/-- `urlunsplit` with empty query and fragment, when the `//` marker is
not re-added. -/
theorem urlunsplit_cond_false (scheme netloc url : List Char)
    (h : ¬ (!netloc.isEmpty || (!scheme.isEmpty && schemeUsesNetloc scheme &&
      !decide (url.take 2 = ['/', '/']))) = true) :
    urlunsplitChars scheme netloc url [] [] =
      (if !scheme.isEmpty then scheme ++ ':' :: url else url) := by
  unfold urlunsplitChars
  dsimp only []
  rw [if_neg h]
  simp only [List.isEmpty_nil, Bool.not_true, Bool.false_eq_true, if_false]

/-- `urlunparse` through the rejoined path. -/
theorem urlunparse_pathWith (sc nl pa pr q f : List Char) :
    urlunparseChars ⟨sc, nl, pa, pr, q, f⟩ =
      urlunsplitChars sc nl (pathWith pa pr) q f := by
  unfold urlunparseChars pathWith
  dsimp only []
  by_cases h : pr.isEmpty = true
  · rw [if_neg (by simp [h]), if_pos h]
  · rw [if_pos (by simp [h]), if_neg h]

/-- `urlsplit` on an already clean URL: the pre-cleaning steps are the
identity. -/
theorem urlsplit_clean (l : List Char)
    (hhead : ∀ c, l.head? = some c → c0Space c = false)
    (hfree : ∀ x ∈ l, unsafeUrlChar x = false) :
    urlsplitChars l =
      (if (splitScheme l).2.take 2 = ['/', '/'] then
        if bracketMismatch (splitNetlocChars ((splitScheme l).2.drop 2)).1 then
          none
        else
          some ⟨(splitScheme l).1,
            (splitNetlocChars ((splitScheme l).2.drop 2)).1,
            (splitOnce '?' (splitOnce '#'
              (splitNetlocChars ((splitScheme l).2.drop 2)).2).1).1,
            ((splitOnce '?' (splitOnce '#'
              (splitNetlocChars ((splitScheme l).2.drop 2)).2).1).2).getD [],
            ((splitOnce '#'
              (splitNetlocChars ((splitScheme l).2.drop 2)).2).2).getD []⟩
      else
        some ⟨(splitScheme l).1, [],
          (splitOnce '?' (splitOnce '#' (splitScheme l).2).1).1,
          ((splitOnce '?' (splitOnce '#' (splitScheme l).2).1).2).getD [],
          ((splitOnce '#' (splitScheme l).2).2).getD []⟩) := by
  unfold urlsplitChars
  rw [dropWhile_eq_self_of_head l hhead, stripUnsafe_eq_self l hfree]

/-- ASCII letters are not C0 controls or spaces. -/
theorem isAsciiAlpha_not_c0 (c : Char) (h : isAsciiAlpha c = true) :
    c0Space c = false := by
  have h2 := (isAsciiAlpha_iff c).mp h
  unfold c0Space
  rw [Bool.eq_false_iff]
  intro hb
  have h3 := of_decide_eq_true hb
  omega

/-- `urlparse` of a clean URL whose rest after the scheme does not start
with `//`: no netloc, and the path and parameters come from the guarded
parameter split of the rest. -/
theorem urlparse_nonetloc (l sch rest pa pr : List Char)
    (hhead : ∀ c, l.head? = some c → c0Space c = false)
    (hfree : ∀ x ∈ l, unsafeUrlChar x = false)
    (hss : splitScheme l = (sch, rest))
    (htake : ¬(rest.take 2 = ['/', '/']))
    (hclean : ∀ x ∈ rest, (x == '#') = false ∧ (x == '?') = false)
    (hps : (if schemeUsesParams sch && rest.contains ';' then
       splitParamsChars rest else (rest, [])) = (pa, pr)) :
    urlparseChars l = some ⟨sch, [], pa, pr, [], []⟩ := by
  unfold urlparseChars
  rw [urlsplit_clean l hhead hfree, hss]
  dsimp only []
  rw [if_neg htake]
  rw [splitOnce_of_not_mem '#' rest (fun x hx => (hclean x hx).1)]
  dsimp only []
  rw [splitOnce_of_not_mem '?' rest (fun x hx => (hclean x hx).2)]
  dsimp only []
  rw [Option.map_some']
  dsimp only []
  by_cases hgd : (schemeUsesParams sch && rest.contains ';') = true
  · rw [if_pos hgd] at hps
    rw [if_pos hgd, hps]
    rfl
  · rw [if_neg hgd] at hps
    rw [if_neg hgd]
    rw [Prod.mk.injEq] at hps
    rw [← hps.1, ← hps.2]
    rfl

/-- `urlparse` of a clean URL whose rest after the scheme is
`//netloc` followed by a slash-headed (or empty) path. -/
theorem urlparse_netloc (l sch netloc pathX pa pr : List Char)
    (hhead : ∀ c, l.head? = some c → c0Space c = false)
    (hfree : ∀ x ∈ l, unsafeUrlChar x = false)
    (hss : splitScheme l = (sch, '/' :: '/' :: (netloc ++ pathX)))
    (hnl : ∀ x ∈ netloc, netlocStop x = false)
    (hbr : bracketMismatch netloc = false)
    (hpX : pathX = [] ∨ pathX.head? = some '/')
    (hclean : ∀ x ∈ pathX, (x == '#') = false ∧ (x == '?') = false)
    (hps : (if schemeUsesParams sch && pathX.contains ';' then
       splitParamsChars pathX else (pathX, [])) = (pa, pr)) :
    urlparseChars l = some ⟨sch, netloc, pa, pr, [], []⟩ := by
  have hshape : pathX = [] ∨ ∃ y t, pathX = y :: t ∧ netlocStop y = true := by
    rcases hpX with h0 | hh
    · exact Or.inl h0
    · right
      cases pathX with
      | nil => exact absurd hh (by simp)
      | cons c t =>
        rw [List.head?_cons, Option.some.injEq] at hh
        exact ⟨c, t, by rw [hh], by rw [hh]; decide⟩
  unfold urlparseChars
  rw [urlsplit_clean l hhead hfree, hss]
  dsimp only []
  rw [if_pos (show List.take 2 ('/' :: '/' :: (netloc ++ pathX)) = ['/', '/']
    from rfl)]
  rw [show List.drop 2 ('/' :: '/' :: (netloc ++ pathX)) = netloc ++ pathX
    from rfl]
  rw [splitNetloc_rejoin netloc pathX hnl hshape]
  dsimp only []
  rw [if_neg (by rw [hbr]; simp)]
  rw [splitOnce_of_not_mem '#' pathX (fun x hx => (hclean x hx).1)]
  dsimp only []
  rw [splitOnce_of_not_mem '?' pathX (fun x hx => (hclean x hx).2)]
  dsimp only []
  rw [Option.map_some']
  dsimp only []
  by_cases hgd : (schemeUsesParams sch && pathX.contains ';') = true
  · rw [if_pos hgd] at hps
    rw [if_pos hgd, hps]
    rfl
  · rw [if_neg hgd] at hps
    rw [if_neg hgd]
    rw [Prod.mk.injEq] at hps
    rw [← hps.1, ← hps.2]
    rfl

/-- Re-parsing the URL `normalize_url` rebuilds gives components that
rebuild to the same URL, provided the parse had a netloc or a path not
starting with `//`. -/
theorem normalize_roundtrip (u : List Char) (p : ParseResult)
    (h : urlparseChars u = some p)
    (hside : p.netloc ≠ [] ∨ ¬(p.path.take 2 = ['/', '/'])) :
    ∃ q, urlparseChars
        (urlunparseChars ⟨p.scheme, p.netloc, p.path, p.params, [], []⟩) =
        some q ∧
      urlunparseChars ⟨q.scheme, q.netloc, q.path, q.params, [], []⟩ =
        urlunparseChars ⟨p.scheme, p.netloc, p.path, p.params, [], []⟩ := by
  obtain ⟨i1, i2, i3, i4, i5, i6, i7, i8, i9⟩ := urlparse_some_inv u p h
  have hO : urlunparseChars ⟨p.scheme, p.netloc, p.path, p.params, [], []⟩ =
      urlunsplitChars p.scheme p.netloc (pathWith p.path p.params) [] [] :=
    urlunparse_pathWith _ _ _ _ _ _
  have hpwclean : ∀ x ∈ pathWith p.path p.params,
      (x == '#') = false ∧ (x == '?') = false ∧ unsafeUrlChar x = false := by
    intro x hx
    rcases pathWith_mem _ _ x hx with h1 | h2 | h3
    · exact i5 x h1
    · rw [h2]
      exact ⟨by decide, by decide, by decide⟩
    · obtain ⟨_, a, b, c⟩ := i6 x h3
      exact ⟨a, b, c⟩
  have hscmclean : ∀ x ∈ p.scheme, unsafeUrlChar x = false := by
    rcases i2 with h0 | ⟨b, bs, hbs, _, hall⟩
    · rw [h0]
      intro x hx
      simp at hx
    · rw [hbs]
      intro x hx
      exact schemeChar_not_unsafe x (List.all_eq_true.mp hall x hx)
  have hprf : ∀ x ∈ p.params, (x == '/') = false := fun x hx => (i6 x hx).1
  by_cases hcond : (!p.netloc.isEmpty || (!p.scheme.isEmpty &&
      schemeUsesNetloc p.scheme &&
      !decide ((pathWith p.path p.params).take 2 = ['/', '/']))) = true
  · -- the rebuilt URL re-adds the `//` marker
    have key : ∃ pathX qpath,
        (if (!(pathWith p.path p.params).isEmpty &&
            !((pathWith p.path p.params).head? == some '/')) = true then
          '/' :: pathWith p.path p.params else pathWith p.path p.params) =
            pathX ∧
        (pathX = [] ∨ pathX.head? = some '/') ∧
        pathX = pathWith qpath p.params ∧
        (if schemeUsesParams p.scheme && pathX.contains ';' then
           splitParamsChars pathX else (pathX, [])) = (qpath, p.params) ∧
        (¬((pathWith p.path p.params).take 2 = ['/', '/']) →
          ¬(pathX.take 2 = ['/', '/'])) := by
      by_cases hemp : pathWith p.path p.params = []
      · have hp2 : p.path = [] ∧ p.params = [] := by
          unfold pathWith at hemp
          by_cases he : p.params.isEmpty = true
          · rw [if_pos he] at hemp
            exact ⟨hemp, List.isEmpty_iff.mp he⟩
          · rw [if_neg he] at hemp
            exact absurd hemp (by simp)
        refine ⟨[], p.path, ?_, Or.inl rfl, ?_, ?_, fun _ => by decide⟩
        · rw [hemp]
          rfl
        · exact hemp.symm
        · rw [if_neg (by simp)]
          rw [hp2.1, hp2.2]
      · by_cases hslash : (pathWith p.path p.params).head? = some '/'
        · refine ⟨pathWith p.path p.params, p.path, ?_, Or.inr hslash, rfl,
            reSplitParams p.scheme p.path p.params i7 i8 hprf, fun hh => hh⟩
          rw [hslash, if_neg (by simp)]
        · have hcondadj : (!(pathWith p.path p.params).isEmpty &&
              !((pathWith p.path p.params).head? == some '/')) = true := by
            rw [Bool.and_eq_true]
            constructor
            · simp [hemp]
            · have hbe : ((pathWith p.path p.params).head? == some '/') =
                  false := by
                rw [beq_eq_false_iff_ne]
                exact hslash
              rw [hbe]
              rfl
          refine ⟨'/' :: pathWith p.path p.params, '/' :: p.path, ?_,
            Or.inr rfl, by rw [pathWith_slash], ?_, fun _ => ?_⟩
          · rw [if_pos hcondadj]
          · rw [← pathWith_slash]
            refine reSplitParams p.scheme ('/' :: p.path) p.params ?_ ?_ hprf
            · exact i7.imp (noSemiTail_cons_slash _) id
            · exact fun hne =>
                ⟨(i8 hne).1, noSemiTail_cons_slash _ (i8 hne).2⟩
          · intro hcon
            cases hpweq : pathWith p.path p.params with
            | nil => exact hemp hpweq
            | cons c t =>
              rw [hpweq] at hcon
              rw [show List.take 2 ('/' :: c :: t) = ['/', c] from rfl] at hcon
              have hc2 : c = '/' := by
                simpa using hcon
              refine hslash ?_
              rw [hpweq, hc2]
              rfl
    obtain ⟨pathX, qpath, hadj, hpXsh, hpXpw, hresplit, htk⟩ := key
    have hpXmem : ∀ x ∈ pathX, x = '/' ∨ x ∈ pathWith p.path p.params := by
      intro x hx
      rw [← hadj] at hx
      by_cases hc : ((!(pathWith p.path p.params).isEmpty &&
          !((pathWith p.path p.params).head? == some '/')) = true)
      · rw [if_pos hc] at hx
        rcases List.mem_cons.mp hx with h1 | h2
        · exact Or.inl h1
        · exact Or.inr h2
      · rw [if_neg hc] at hx
        exact Or.inr hx
    have hpXclean : ∀ x ∈ pathX, (x == '#') = false ∧ (x == '?') = false := by
      intro x hx
      rcases hpXmem x hx with h1 | h2
      · rw [h1]
        exact ⟨by decide, by decide⟩
      · exact ⟨(hpwclean x h2).1, (hpwclean x h2).2.1⟩
    have hpXfree : ∀ x ∈ pathX, unsafeUrlChar x = false := by
      intro x hx
      rcases hpXmem x hx with h1 | h2
      · rw [h1]
        decide
      · exact (hpwclean x h2).2.2
    have hinnerfree : ∀ x ∈ '/' :: '/' :: (p.netloc ++ pathX),
        unsafeUrlChar x = false := by
      intro x hx
      rcases List.mem_cons.mp hx with h1 | hx2
      · rw [h1]; decide
      · rcases List.mem_cons.mp hx2 with h2 | hx3
        · rw [h2]; decide
        · rcases List.mem_append.mp hx3 with h3 | h4
          · exact (i3 x h3).2
          · exact hpXfree x h4
    have hadjX : (if (!pathX.isEmpty && !(pathX.head? == some '/')) = true
        then '/' :: pathX else pathX) = pathX := by
      rcases hpXsh with h0 | hh
      · rw [h0]
        rfl
      · rw [hh, if_neg (by simp)]
    rcases i2 with hs0 | ⟨b, bs, hbs, halpha, hall⟩
    · -- no scheme: the rebuilt URL starts with `//`
      have hOsch : urlunparseChars ⟨p.scheme, p.netloc, p.path, p.params,
          [], []⟩ = '/' :: '/' :: (p.netloc ++ pathX) := by
        rw [hO, urlunsplit_cond_true _ _ _ hcond, hadj, hs0]
        rfl
      have hssO : splitScheme ('/' :: '/' :: (p.netloc ++ pathX)) =
          ([], '/' :: '/' :: (p.netloc ++ pathX)) :=
        splitScheme_head_not_alpha _ (Or.inr ⟨'/', _, rfl, by decide⟩)
      have hreparse := urlparse_netloc ('/' :: '/' :: (p.netloc ++ pathX))
        [] p.netloc pathX qpath p.params
        (by
          intro c hc
          rw [List.head?_cons, Option.some.injEq] at hc
          rw [← hc]
          decide)
        hinnerfree hssO (fun x hx => (i3 x hx).1) i4 hpXsh hpXclean
        (by have hr := hresplit; rw [hs0] at hr; exact hr)
      refine ⟨⟨[], p.netloc, qpath, p.params, [], []⟩, ?_, ?_⟩
      · rw [hOsch]
        exact hreparse
      · rw [urlunparse_pathWith]
        rw [← hpXpw]
        have hcondq : (!p.netloc.isEmpty || (!List.isEmpty ([] : List Char) &&
            schemeUsesNetloc [] && !decide (pathX.take 2 = ['/', '/']))) =
              true := by
          rw [hs0] at hcond
          rcases Bool.or_eq_true_iff.mp hcond with h1 | h2
          · rw [Bool.or_eq_true_iff]
            exact Or.inl h1
          · exfalso
            rw [show (!List.isEmpty ([] : List Char)) = false from rfl] at h2
            simp at h2
        rw [urlunsplit_cond_true [] p.netloc pathX hcondq, hadjX]
        rw [hOsch]
        rfl
    · -- a scheme: the rebuilt URL is `scheme://...`
      have hOsch : urlunparseChars ⟨p.scheme, p.netloc, p.path, p.params,
          [], []⟩ = (b :: bs) ++ ':' :: ('/' :: '/' :: (p.netloc ++ pathX)) := by
        rw [hO, urlunsplit_cond_true _ _ _ hcond, hadj, hbs]
        rfl
      have hlow2 : (b :: bs).map pyLowerChar = b :: bs := by
        rw [← hbs]
        exact i1
      have hssO : splitScheme ((b :: bs) ++ ':' ::
          ('/' :: '/' :: (p.netloc ++ pathX))) =
          (b :: bs, '/' :: '/' :: (p.netloc ++ pathX)) :=
        splitScheme_rejoin b bs _ halpha hall hlow2
      have hOfree2 : ∀ x ∈ (b :: bs) ++ ':' ::
          ('/' :: '/' :: (p.netloc ++ pathX)), unsafeUrlChar x = false := by
        intro x hx
        rcases List.mem_append.mp hx with h1 | h2
        · refine hscmclean x ?_
          rw [hbs]
          exact h1
        · rcases List.mem_cons.mp h2 with h3 | h4
          · rw [h3]; decide
          · exact hinnerfree x h4
      have hreparse := urlparse_netloc
        ((b :: bs) ++ ':' :: ('/' :: '/' :: (p.netloc ++ pathX)))
        (b :: bs) p.netloc pathX qpath p.params
        (by
          intro c hc
          rw [List.cons_append, List.head?_cons, Option.some.injEq] at hc
          rw [← hc]
          exact isAsciiAlpha_not_c0 b halpha)
        hOfree2 hssO (fun x hx => (i3 x hx).1) i4 hpXsh hpXclean
        (by have hr := hresplit; rw [hbs] at hr; exact hr)
      refine ⟨⟨b :: bs, p.netloc, qpath, p.params, [], []⟩, ?_, ?_⟩
      · rw [hOsch]
        exact hreparse
      · rw [urlunparse_pathWith]
        rw [← hpXpw]
        have hcondq : (!p.netloc.isEmpty || (!(b :: bs).isEmpty &&
            schemeUsesNetloc (b :: bs) &&
            !decide (pathX.take 2 = ['/', '/']))) = true := by
          rw [hbs] at hcond
          rcases Bool.or_eq_true_iff.mp hcond with h1 | h2
          · rw [Bool.or_eq_true_iff]
            exact Or.inl h1
          · rw [Bool.and_eq_true] at h2
            obtain ⟨h3, h4⟩ := h2
            have h5 : ¬(pathX.take 2 = ['/', '/']) := by
              refine htk ?_
              intro hcc
              rw [decide_eq_true hcc] at h4
              simp at h4
            rw [Bool.or_eq_true_iff]
            right
            rw [Bool.and_eq_true]
            refine ⟨h3, ?_⟩
            rw [decide_eq_false h5]
            rfl
        rw [urlunsplit_cond_true (b :: bs) p.netloc pathX hcondq, hadjX]
        rw [hOsch]
        rfl
  · -- the rebuilt URL keeps the path as is
    have hnl0 : p.netloc = [] := by
      by_cases hni : p.netloc.isEmpty = true
      · exact List.isEmpty_iff.mp hni
      · exfalso
        refine hcond ?_
        rw [Bool.or_eq_true_iff]
        left
        rw [Bool.eq_false_iff.mpr hni]
        rfl
    have hsideR : ¬(p.path.take 2 = ['/', '/']) := by
      rcases hside with h1 | h2
      · exact absurd hnl0 h1
      · exact h2
    have htant : ¬((pathWith p.path p.params).take 2 = ['/', '/']) :=
      fun hc => hsideR (pathWith_take2 _ _ hc)
    have hpwclean2 : ∀ x ∈ pathWith p.path p.params,
        (x == '#') = false ∧ (x == '?') = false :=
      fun x hx => ⟨(hpwclean x hx).1, (hpwclean x hx).2.1⟩
    have hpwfree : ∀ x ∈ pathWith p.path p.params, unsafeUrlChar x = false :=
      fun x hx => (hpwclean x hx).2.2
    rcases i2 with hs0 | ⟨b, bs, hbs, halpha, hall⟩
    · -- no scheme: the rebuilt URL is the rejoined path itself
      have hOpw : urlunparseChars ⟨p.scheme, p.netloc, p.path, p.params,
          [], []⟩ = pathWith p.path p.params := by
        rw [hO, urlunsplit_cond_false _ _ _ hcond, hs0]
        rfl
      have hfixhead : splitScheme (pathWith p.path p.params) =
          ([], pathWith p.path p.params) ∧
          (∀ c, (pathWith p.path p.params).head? = some c →
            c0Space c = false) := by
        rcases i9 with hL | ⟨_, _, hsch⟩
        · rcases hL with hpw0 | hpwh
          · constructor
            · rw [hpw0]
              rfl
            · intro c hc
              rw [hpw0] at hc
              exact absurd hc (by simp)
          · constructor
            · refine splitScheme_head_not_alpha _ (Or.inr ?_)
              cases hpweq : pathWith p.path p.params with
              | nil =>
                rw [hpweq] at hpwh
                exact absurd hpwh (by simp)
              | cons c t =>
                rw [hpweq] at hpwh
                rw [List.head?_cons, Option.some.injEq] at hpwh
                exact ⟨c, t, rfl, by rw [hpwh]; decide⟩
            · intro c hc
              rw [hpwh] at hc
              rw [Option.some.injEq] at hc
              rw [← hc]
              decide
        · exact hsch hs0
      have hreparse := urlparse_nonetloc (pathWith p.path p.params)
        [] (pathWith p.path p.params) p.path p.params
        hfixhead.2 hpwfree hfixhead.1 htant hpwclean2
        (by
          have hr := reSplitParams p.scheme p.path p.params i7 i8 hprf
          rw [hs0] at hr
          exact hr)
      refine ⟨⟨[], [], p.path, p.params, [], []⟩, ?_, ?_⟩
      · rw [hOpw]
        exact hreparse
      · rw [urlunparse_pathWith]
        rw [urlunsplit_cond_false [] [] _ (by simp)]
        rw [hOpw]
        rfl
    · -- a scheme without the `//` marker
      have hOsch : urlunparseChars ⟨p.scheme, p.netloc, p.path, p.params,
          [], []⟩ = (b :: bs) ++ ':' :: pathWith p.path p.params := by
        rw [hO, urlunsplit_cond_false _ _ _ hcond, hbs]
        rfl
      have hlow2 : (b :: bs).map pyLowerChar = b :: bs := by
        rw [← hbs]
        exact i1
      have hssO : splitScheme ((b :: bs) ++ ':' :: pathWith p.path p.params) =
          (b :: bs, pathWith p.path p.params) :=
        splitScheme_rejoin b bs _ halpha hall hlow2
      have hOfree2 : ∀ x ∈ (b :: bs) ++ ':' :: pathWith p.path p.params,
          unsafeUrlChar x = false := by
        intro x hx
        rcases List.mem_append.mp hx with h1 | h2
        · refine hscmclean x ?_
          rw [hbs]
          exact h1
        · rcases List.mem_cons.mp h2 with h3 | h4
          · rw [h3]; decide
          · exact hpwfree x h4
      have hreparse := urlparse_nonetloc
        ((b :: bs) ++ ':' :: pathWith p.path p.params)
        (b :: bs) (pathWith p.path p.params) p.path p.params
        (by
          intro c hc
          rw [List.cons_append, List.head?_cons, Option.some.injEq] at hc
          rw [← hc]
          exact isAsciiAlpha_not_c0 b halpha)
        hOfree2 hssO htant hpwclean2
        (by
          have hr := reSplitParams p.scheme p.path p.params i7 i8 hprf
          rw [hbs] at hr
          exact hr)
      refine ⟨⟨b :: bs, [], p.path, p.params, [], []⟩, ?_, ?_⟩
      · rw [hOsch]
        exact hreparse
      · rw [urlunparse_pathWith]
        have hcondq2 : ¬((!List.isEmpty ([] : List Char) ||
            (!(b :: bs).isEmpty && schemeUsesNetloc (b :: bs) &&
             !decide ((pathWith p.path p.params).take 2 = ['/', '/'])))) =
              true := by
          rw [hnl0, hbs] at hcond
          exact hcond
        rw [urlunsplit_cond_false (b :: bs) [] _ hcondq2]
        rw [hOsch]
        rfl

/-- C9 counterexample: `normalize_url` is not idempotent.  On the
CPython 3.11 `urllib.parse` semantics it embeds, `"//////x"` parses
with an empty netloc and path `"////x"`, so one normalization returns
`"////x"` and a second normalization shortens it again to `"//x"`. -/
theorem C9_normalize_idempotent_counterexample :
    normalize_url "//////x" = "////x" ∧
    normalize_url "////x" = "//x" ∧
    normalize_url (normalize_url "//////x") ≠ normalize_url "//////x" := by
  refine ⟨by rfl, by rfl, by decide⟩

/-- C9 (amended): `normalize_url` is idempotent on every input whose
parse either fails (the input is returned unchanged) or yields a
non-empty netloc or a path that does not begin with `//`; only parsed
URLs with an empty netloc and a `//`-headed path (e.g. `"//////x"`)
lose further slash pairs on re-normalization. -/
theorem C9_normalize_idempotent (url : String)
    (h : ∀ p, urlparseChars url.data = some p →
      p.netloc ≠ [] ∨ ¬(p.path.take 2 = ['/', '/'])) :
    normalize_url (normalize_url url) = normalize_url url := by
  rcases hp : urlparseChars url.data with _ | p
  · have h1 : normalize_url url = url := by
      unfold normalize_url
      rw [hp]
    rw [h1]
    exact h1
  · obtain ⟨q, hq1, hq2⟩ := normalize_roundtrip url.data p hp (h p hp)
    have h1 : normalize_url url = String.mk
        (urlunparseChars ⟨p.scheme, p.netloc, p.path, p.params, [], []⟩) := by
      unfold normalize_url
      rw [hp]
    rw [h1]
    unfold normalize_url
    rw [show (String.mk (urlunparseChars
      ⟨p.scheme, p.netloc, p.path, p.params, [], []⟩)).data =
      urlunparseChars ⟨p.scheme, p.netloc, p.path, p.params, [], []⟩
      from rfl]
    rw [hq1]
    dsimp only []
    rw [hq2]

/-- Witness instantiating the amended C9 on a URL with scheme, netloc,
parameters, query and fragment. -/
theorem C9_normalize_idempotent_witness :
    normalize_url (normalize_url "http://example.com/a;b?q#f") =
      normalize_url "http://example.com/a;b?q#f" :=
  C9_normalize_idempotent "http://example.com/a;b?q#f" (fun p hp => by
    rw [show urlparseChars (String.data "http://example.com/a;b?q#f") =
      some ⟨"http".data, "example.com".data, "/a".data, "b".data,
        "q".data, "f".data⟩ from rfl] at hp
    have h2 := Option.some.inj hp
    rw [← h2]
    left
    decide)
